import Mathlib

/-!
# Verification of the izysays text-transformation and document-post-processing pipeline

Shallow embedding of the content-script core:

* the three inline rewriters `addMarkTags`, `addSuperScript`, `addSubScript`
  (src/src/content.js lines 92-111, src/core/addTag.js lines 10-44), modelled as
  left-to-right scans with non-greedy capture, mirroring JavaScript
  `String.replace` with the global regexes `==(.*?)==`, `\^(.*?)\^`, `\_-(.*?)-\_`;
* the DOM text-node walker `applyTextTransformationsToTextNodes`
  (src/src/content.js lines 116-163);
* the two tree decorators `rehypeCodeLanguageIcons` and `rehypeAdmonitions`
  (src/src/content.js lines 178-284) over a hast-like node type;
* the markdown-suffix activation gate of `renderMarkdown`
  (src/src/content.js lines 339-353).
-/

/-! ## JavaScript regex `.` : any character except a line terminator -/

/-- `true` iff `c` is matched by the JavaScript regex metacharacter `.`
(without the `s` flag): every character except the four ECMAScript line
terminators. -/
def isDotChar (c : Char) : Bool :=
  !(c = '\n' || c = '\r' || c = ' ' || c = ' ')

/-- Non-greedy search for the closing delimiter: `findClose close s` returns
`some (cap, rem)` where `cap` is the shortest prefix of `s` consisting of
`.`-matchable characters such that `close` immediately follows, and `rem` is
the remainder after `close`; `none` when no closing delimiter is reachable.
This is the semantics of `(.*?)` followed by the closing marker in the three
source regexes. -/
def findClose (close : List Char) : List Char → Option (List Char × List Char)
  | [] => if close.isPrefixOf ([] : List Char) then some ([], []) else none
  | c :: rest =>
    if close.isPrefixOf (c :: rest) then some ([], (c :: rest).drop close.length)
    else if isDotChar c then
      match findClose close rest with
      | some (cap, rem) => some (c :: cap, rem)
      | none => none
    else none

/-- One left-to-right scan of JavaScript
`text.replace(/OPENS(.*?)CLOSE/g, PRE ++ $1 ++ POST)`: at each position try the
opening marker, then the non-greedy capture up to the closing marker; on a
match emit `pre ++ capture ++ post` and resume after the match, otherwise copy
one character.  `fuel` bounds the recursion; every step consumes at least one
character, so `fuel = s.length` is always enough. -/
def goRepl (opens close pre post : List Char) : Nat → List Char → List Char
  | _, [] => []
  | 0, s => s
  | fuel + 1, c :: rest =>
    if opens.isPrefixOf (c :: rest) then
      match findClose close ((c :: rest).drop opens.length) with
      | some (cap, rem) => pre ++ cap ++ post ++ goRepl opens close pre post fuel rem
      | none => c :: goRepl opens close pre post fuel rest
    else c :: goRepl opens close pre post fuel rest

/-- JavaScript `String.replace` with a global non-greedy delimited pattern. -/
def jsReplace (opens close pre post : List Char) (s : List Char) : List Char :=
  goRepl opens close pre post s.length s

/-- `addMarkTags` on character lists: `text.replace(/==(.*?)==/g, '<mark>$1</mark>')`. -/
def addMarkTagsL (s : List Char) : List Char :=
  jsReplace ['=', '='] ['=', '='] "<mark>".data "</mark>".data s

/-- `addSuperScript` on character lists:
`text.replace(/\^(.*?)\^/g, '<sup class="suptext">$1</sup>')`. -/
def addSuperScriptL (s : List Char) : List Char :=
  jsReplace ['^'] ['^'] "<sup class=\"suptext\">".data "</sup>".data s

/-- `addSubScript` on character lists:
`text.replace(/\_-(.*?)-\_/g, '<sub class="subtext">$1</sub>')`. -/
def addSubScriptL (s : List Char) : List Char :=
  jsReplace ['_', '-'] ['-', '_'] "<sub class=\"subtext\">".data "</sub>".data s

/-- Adds mark tags for highlighted text (`==text==`), src/src/content.js line 92. -/
def addMarkTags (text : String) : String := String.mk (addMarkTagsL text.data)

/-- Adds superscript spans for `^text^`, src/src/content.js line 100. -/
def addSuperScript (text : String) : String := String.mk (addSuperScriptL text.data)

/-- Adds subscript spans for `_-text-_`, src/src/content.js line 108. -/
def addSubScript (text : String) : String := String.mk (addSubScriptL text.data)

/-- The composed inline rewriter, in the fixed order the source applies the
three transformations (src/src/content.js lines 147-149):
mark tags, then superscript, then subscript. -/
def transformAllL (s : List Char) : List Char :=
  addSubScriptL (addSuperScriptL (addMarkTagsL s))

/-- The composed inline rewriter on strings. -/
def transformAll (s : String) : String := String.mk (transformAllL s.data)

/-- `occursIn pat s` is `true` iff `pat` occurs as a contiguous substring of `s`. -/
def occursIn (pat : List Char) : List Char → Bool
  | [] => pat.isPrefixOf ([] : List Char)
  | c :: rest => pat.isPrefixOf (c :: rest) || occursIn pat rest

/-! ## Basic facts about `findClose` -/

theorem findClose_append {close : List Char} : ∀ {s cap rem : List Char},
    findClose close s = some (cap, rem) → s = cap ++ close ++ rem := by
  intro s
  induction s with
  | nil =>
    intro cap rem h
    simp only [findClose] at h
    split at h
    · rename_i hp
      obtain ⟨rfl, rfl⟩ := Prod.mk.injEq .. ▸ (Option.some.injEq .. ▸ h)
      have hpre : close <+: ([] : List Char) := List.isPrefixOf_iff_prefix.mp hp
      have : close = [] := List.prefix_nil.mp hpre
      simp [this]
    · exact absurd h (by simp)
  | cons c rest ih =>
    intro cap rem h
    simp only [findClose] at h
    split at h
    · rename_i hp
      obtain ⟨rfl, rfl⟩ := Prod.mk.injEq .. ▸ (Option.some.injEq .. ▸ h)
      obtain ⟨t, ht⟩ := List.isPrefixOf_iff_prefix.mp hp
      calc c :: rest = close ++ t := ht.symm
        _ = [] ++ close ++ (close ++ t).drop close.length := by
              simp [List.drop_left]
        _ = [] ++ close ++ (c :: rest).drop close.length := by rw [ht]
    · split at h
      · rename_i hdot
        cases hfc : findClose close rest with
        | some p =>
          obtain ⟨cap', rem'⟩ := p
          rw [hfc] at h
          simp only [Option.some.injEq, Prod.mk.injEq] at h
          obtain ⟨rfl, rfl⟩ := h
          have := ih hfc
          simp [this]
        | none => rw [hfc] at h; exact absurd h (by simp)
      · exact absurd h (by simp)

theorem findClose_cap_dots {close : List Char} : ∀ {s cap rem : List Char},
    findClose close s = some (cap, rem) → ∀ c ∈ cap, isDotChar c = true := by
  intro s
  induction s with
  | nil =>
    intro cap rem h
    simp only [findClose] at h
    split at h
    · obtain ⟨rfl, rfl⟩ := Prod.mk.injEq .. ▸ (Option.some.injEq .. ▸ h)
      intro c hc; exact absurd hc (List.not_mem_nil c)
    · exact absurd h (by simp)
  | cons c rest ih =>
    intro cap rem h
    simp only [findClose] at h
    split at h
    · obtain ⟨rfl, rfl⟩ := Prod.mk.injEq .. ▸ (Option.some.injEq .. ▸ h)
      intro x hx; exact absurd hx (List.not_mem_nil x)
    · split at h
      · rename_i hdot
        cases hfc : findClose close rest with
        | some p =>
          obtain ⟨cap', rem'⟩ := p
          rw [hfc] at h
          simp only [Option.some.injEq, Prod.mk.injEq] at h
          obtain ⟨rfl, rfl⟩ := h
          intro x hx
          rcases List.mem_cons.mp hx with rfl | hx
          · exact hdot
          · exact ih hfc x hx
        | none => rw [hfc] at h; exact absurd h (by simp)
      · exact absurd h (by simp)

theorem findClose_some_length {close : List Char} {s cap rem : List Char}
    (h : findClose close s = some (cap, rem)) :
    cap.length + close.length + rem.length = s.length := by
  have := findClose_append h
  subst this
  simp [Nat.add_assoc]

theorem findClose_cap_no_close {close : List Char} (hc : close ≠ []) :
    ∀ {s cap rem : List Char},
    findClose close s = some (cap, rem) → occursIn close cap = false := by
  intro s
  induction s with
  | nil =>
    intro cap rem h
    simp only [findClose] at h
    split at h
    · rename_i hp
      obtain ⟨rfl, rfl⟩ := Prod.mk.injEq .. ▸ (Option.some.injEq .. ▸ h)
      have : close = [] := List.prefix_nil.mp (List.isPrefixOf_iff_prefix.mp hp)
      exact absurd this hc
    · exact absurd h (by simp)
  | cons c rest ih =>
    intro cap rem h
    simp only [findClose] at h
    split at h
    · obtain ⟨rfl, rfl⟩ := Prod.mk.injEq .. ▸ (Option.some.injEq .. ▸ h)
      simp only [occursIn]
      cases close with
      | nil => exact absurd rfl hc
      | cons a l => simp
    · rename_i hp
      split at h
      · cases hfc : findClose close rest with
        | some p =>
          obtain ⟨cap', rem'⟩ := p
          rw [hfc] at h
          simp only [Option.some.injEq, Prod.mk.injEq] at h
          obtain ⟨rfl, rfl⟩ := h
          simp only [occursIn, Bool.or_eq_false_iff]
          constructor
          · -- a prefix of c :: cap' would extend to a prefix of c :: rest
            by_contra hcp
            have hcp' : close.isPrefixOf (c :: cap') = true := by
              cases hx : close.isPrefixOf (c :: cap')
              · exact absurd hx hcp
              · rfl
            have h1 : close <+: c :: cap' := List.isPrefixOf_iff_prefix.mp hcp'
            have h2 : (c :: cap') <+: c :: rest := by
              have := findClose_append hfc
              subst this
              exact ⟨close ++ rem', by simp⟩
            have : close.isPrefixOf (c :: rest) = true :=
              List.isPrefixOf_iff_prefix.mpr (h1.trans h2)
            simp [this] at hp
          · exact ih hfc
        | none => rw [hfc] at h; exact absurd h (by simp)
      · exact absurd h (by simp)

/-! ## Fuel irrelevance and unfolding equations for the scanner -/

@[simp] theorem goRepl_nil (opens close pre post : List Char) (f : Nat) :
    goRepl opens close pre post f [] = [] := by cases f <;> rfl

theorem goRepl_succ (opens close pre post : List Char) (f : Nat) (c : Char) (rest : List Char) :
    goRepl opens close pre post (f + 1) (c :: rest) =
      if opens.isPrefixOf (c :: rest) then
        match findClose close ((c :: rest).drop opens.length) with
        | some (cap, rem) => pre ++ cap ++ post ++ goRepl opens close pre post f rem
        | none => c :: goRepl opens close pre post f rest
      else c :: goRepl opens close pre post f rest := rfl

theorem goRepl_fuel {opens close pre post : List Char} (ho : opens ≠ []) :
    ∀ (f₁ : Nat) {f₂ : Nat} {s : List Char}, s.length ≤ f₁ → s.length ≤ f₂ →
      goRepl opens close pre post f₁ s = goRepl opens close pre post f₂ s := by
  intro f₁
  induction f₁ with
  | zero =>
    intro f₂ s h1 _
    have : s = [] := List.length_eq_zero.mp (Nat.le_zero.mp h1)
    subst this; simp
  | succ f ih =>
    intro f₂ s h1 h2
    match s with
    | [] => simp
    | c :: rest =>
      match f₂ with
      | 0 => exact absurd h2 (by simp)
      | f₂' + 1 =>
        rw [goRepl_succ, goRepl_succ]
        have hr1 : rest.length ≤ f := by simp only [List.length_cons] at h1; omega
        have hr2 : rest.length ≤ f₂' := by simp only [List.length_cons] at h2; omega
        cases hp : opens.isPrefixOf (c :: rest) with
        | false =>
          rw [if_neg (by simp), if_neg (by simp), ih hr1 hr2]
        | true =>
          rw [if_pos rfl, if_pos rfl]
          cases hfc : findClose close ((c :: rest).drop opens.length) with
          | none => simp only [hfc]; rw [ih hr1 hr2]
          | some p =>
            obtain ⟨cap, rem⟩ := p
            simp only [hfc]
            have hlen := findClose_some_length hfc
            have hole : opens.length ≤ rest.length + 1 := by
              have := List.IsPrefix.length_le (List.isPrefixOf_iff_prefix.mp hp)
              simpa using this
            have hop : 1 ≤ opens.length := by
              cases opens with
              | nil => exact absurd rfl ho
              | cons _ _ => simp
            have hdl : ((c :: rest).drop opens.length).length =
                rest.length + 1 - opens.length := by simp
            have hrem : rem.length ≤ rest.length := by omega
            rw [ih (le_trans hrem hr1) (le_trans hrem hr2)]

theorem jsReplace_cons_not_open {opens close pre post : List Char} {c : Char} {rest : List Char}
    (h : opens.isPrefixOf (c :: rest) = false) :
    jsReplace opens close pre post (c :: rest) = c :: jsReplace opens close pre post rest := by
  show goRepl opens close pre post (rest.length + 1) (c :: rest) = _
  rw [goRepl_succ]
  simp only [h]
  rfl

theorem jsReplace_cons_fail {opens close pre post : List Char} {c : Char} {rest : List Char}
    (h : opens.isPrefixOf (c :: rest) = true)
    (hfc : findClose close ((c :: rest).drop opens.length) = none) :
    jsReplace opens close pre post (c :: rest) = c :: jsReplace opens close pre post rest := by
  show goRepl opens close pre post (rest.length + 1) (c :: rest) = _
  rw [goRepl_succ]
  simp only [h, hfc]
  rfl

theorem jsReplace_cons_match {opens close pre post : List Char} {c : Char}
    {rest cap rem : List Char} (ho : opens ≠ [])
    (h : opens.isPrefixOf (c :: rest) = true)
    (hfc : findClose close ((c :: rest).drop opens.length) = some (cap, rem)) :
    jsReplace opens close pre post (c :: rest) =
      pre ++ cap ++ post ++ jsReplace opens close pre post rem := by
  show goRepl opens close pre post (rest.length + 1) (c :: rest) = _
  rw [goRepl_succ]
  simp only [h, hfc]
  have hlen := findClose_some_length hfc
  have hole : opens.length ≤ rest.length + 1 := by
    have := List.IsPrefix.length_le (List.isPrefixOf_iff_prefix.mp h)
    simpa using this
  have hop : 1 ≤ opens.length := by
    cases opens with
    | nil => exact absurd rfl ho
    | cons _ _ => simp
  have hdl : ((c :: rest).drop opens.length).length = rest.length + 1 - opens.length := by simp
  have hrem : rem.length ≤ rest.length := by omega
  rw [goRepl_fuel ho rest.length hrem (le_refl rem.length)]
  rfl

/-! ## Match-free strings are fixed points of one scan -/

/-- `noMatch opens close s`: at no position of `s` does the opening marker
occur with a reachable closing marker after it.  On such strings a
`jsReplace` scan copies every character. -/
def noMatch (opens close : List Char) (s : List Char) : Prop :=
  ∀ i, opens.isPrefixOf (s.drop i) = true →
    findClose close (s.drop (i + opens.length)) = none

theorem noMatch_nil {opens close : List Char} (ho : opens ≠ []) :
    noMatch opens close [] := by
  intro i hp
  rw [List.drop_nil] at hp
  exact absurd (List.prefix_nil.mp (List.isPrefixOf_iff_prefix.mp hp)) ho

theorem noMatch_cons {opens close : List Char} {x : Char} {t : List Char} :
    noMatch opens close (x :: t) ↔
      (opens.isPrefixOf (x :: t) = true →
        findClose close ((x :: t).drop opens.length) = none) ∧ noMatch opens close t := by
  constructor
  · intro h
    refine ⟨?_, ?_⟩
    · intro hp
      have := h 0 (by simpa using hp)
      simpa using this
    · intro i hp
      have := h (i + 1) (by simpa [List.drop_succ_cons] using hp)
      rw [show i + 1 + opens.length = (i + opens.length) + 1 by omega,
        List.drop_succ_cons] at this
      exact this
  · rintro ⟨h0, ht⟩ i hp
    cases i with
    | zero => simpa using h0 (by simpa using hp)
    | succ j =>
      rw [List.drop_succ_cons] at hp
      rw [show j + 1 + opens.length = (j + opens.length) + 1 by omega, List.drop_succ_cons]
      exact ht j hp

theorem noMatch_append {opens close : List Char} {w z : List Char}
    (hw : ∀ i, i < w.length → opens.isPrefixOf ((w ++ z).drop i) = false)
    (hz : noMatch opens close z) : noMatch opens close (w ++ z) := by
  intro i hp
  by_cases hi : i < w.length
  · rw [hw i hi] at hp
    cases hp
  · have hij : i = w.length + (i - w.length) := by omega
    rw [hij, ← List.drop_drop, List.drop_left] at hp
    rw [show i + opens.length = w.length + (i - w.length + opens.length) by omega,
      ← List.drop_drop, List.drop_left]
    exact hz (i - w.length) hp

/-- A single scan leaves a match-free string unchanged
(the "zero substitutions" case of the rewriting contract). -/
theorem jsReplace_of_noMatch {opens close pre post : List Char} :
    ∀ (n : Nat) (s : List Char), s.length ≤ n → noMatch opens close s →
      jsReplace opens close pre post s = s := by
  intro n
  induction n with
  | zero =>
    intro s h _
    have : s = [] := List.length_eq_zero.mp (Nat.le_zero.mp h)
    subst this; rfl
  | succ n ih =>
    intro s h hs
    match s with
    | [] => rfl
    | x :: t =>
      obtain ⟨h0, ht⟩ := noMatch_cons.mp hs
      have hlt : t.length ≤ n := by simp only [List.length_cons] at h; omega
      cases hp : opens.isPrefixOf (x :: t) with
      | false => rw [jsReplace_cons_not_open hp, ih t hlt ht]
      | true => rw [jsReplace_cons_fail hp (h0 hp), ih t hlt ht]

theorem jsReplace_eq_self_of_noMatch {opens close pre post s : List Char}
    (h : noMatch opens close s) : jsReplace opens close pre post s = s :=
  jsReplace_of_noMatch s.length s (le_refl s.length) h

theorem occursIn_cons (pat : List Char) (c : Char) (rest : List Char) :
    occursIn pat (c :: rest) = (pat.isPrefixOf (c :: rest) || occursIn pat rest) := rfl

/-- If the opening marker never occurs in `s`, the scan is the identity. -/
theorem jsReplace_of_no_open {opens close pre post : List Char} :
    ∀ (n : Nat) (s : List Char), s.length ≤ n → occursIn opens s = false →
      jsReplace opens close pre post s = s := by
  intro n
  induction n with
  | zero =>
    intro s h _
    have : s = [] := List.length_eq_zero.mp (Nat.le_zero.mp h)
    subst this; rfl
  | succ n ih =>
    intro s h hs
    match s with
    | [] => rfl
    | x :: t =>
      rw [occursIn_cons, Bool.or_eq_false_iff] at hs
      have hlt : t.length ≤ n := by simp only [List.length_cons] at h; omega
      rw [jsReplace_cons_not_open hs.1, ih t hlt hs.2]

/-- A scan of a nonempty input starts either by copying the first character
or by emitting the replacement prefix `pre`. -/
theorem jsReplace_cons_shape {opens close pre post : List Char} (ho : opens ≠ [])
    (c : Char) (rest : List Char) :
    (∃ u, jsReplace opens close pre post (c :: rest) = c :: u) ∨
    (∃ u, jsReplace opens close pre post (c :: rest) = pre ++ u) := by
  cases hp : opens.isPrefixOf (c :: rest) with
  | false => exact Or.inl ⟨_, jsReplace_cons_not_open hp⟩
  | true =>
    cases hfc : findClose close ((c :: rest).drop opens.length) with
    | none => exact Or.inl ⟨_, jsReplace_cons_fail hp hfc⟩
    | some p =>
      obtain ⟨cap, rem⟩ := p
      refine Or.inr ⟨cap ++ post ++ jsReplace opens close pre post rem, ?_⟩
      rw [jsReplace_cons_match ho hp hfc]
      simp

/-! ## Claim C9: literal examples of the composed rewriter -/

/-- C9: the three literal examples hold for the composed inline rewriter:
`"this is ==important== info"` gains mark tags, `"E^2^ = mc^2^"` gains two
superscript spans, and `"H_-2-_O"` gains a subscript span. -/
theorem composed_rewriter_literal_examples :
    transformAll "this is ==important== info" = "this is <mark>important</mark> info" ∧
    transformAll "E^2^ = mc^2^" =
      "E<sup class=\"suptext\">2</sup> = mc<sup class=\"suptext\">2</sup>" ∧
    transformAll "H_-2-_O" = "H<sub class=\"subtext\">2</sub>O" := by
  refine ⟨?_, ?_, ?_⟩ <;> decide

/-! ## Claim C7: identity on marker-free strings -/

/-- C7: a string containing none of the rule markers `==`, `^`, `_-`, `-_` is
returned unchanged by the composed inline rewriter, and whenever a rule's
opening marker does not match at the current position the scanner copies that
character byte-for-byte. -/
theorem composed_rewriter_identity_on_marker_free :
    (∀ s : String, occursIn ['=', '='] s.data = false → occursIn ['^'] s.data = false →
      occursIn ['_', '-'] s.data = false → occursIn ['-', '_'] s.data = false →
      transformAll s = s) ∧
    (∀ (c : Char) (rest : List Char), List.isPrefixOf ['=', '='] (c :: rest) = false →
      addMarkTagsL (c :: rest) = c :: addMarkTagsL rest) ∧
    (∀ (c : Char) (rest : List Char), List.isPrefixOf ['^'] (c :: rest) = false →
      addSuperScriptL (c :: rest) = c :: addSuperScriptL rest) ∧
    (∀ (c : Char) (rest : List Char), List.isPrefixOf ['_', '-'] (c :: rest) = false →
      addSubScriptL (c :: rest) = c :: addSubScriptL rest) := by
  refine ⟨?_, ?_, ?_, ?_⟩
  · intro s h1 h2 h3 _
    cases s with
    | mk d =>
      show String.mk (transformAllL d) = String.mk d
      have hm : addMarkTagsL d = d :=
        jsReplace_of_no_open d.length d (le_refl d.length) h1
      have hs : addSuperScriptL d = d :=
        jsReplace_of_no_open d.length d (le_refl d.length) h2
      have hb : addSubScriptL d = d :=
        jsReplace_of_no_open d.length d (le_refl d.length) h3
      rw [transformAllL, hm, hs, hb]
  · intro c rest h; exact jsReplace_cons_not_open h
  · intro c rest h; exact jsReplace_cons_not_open h
  · intro c rest h; exact jsReplace_cons_not_open h

/-- Witness for C7 at a concrete marker-free string. -/
theorem composed_rewriter_identity_on_marker_free_witness :
    transformAll "hello world" = "hello world" :=
  composed_rewriter_identity_on_marker_free.1 "hello world"
    (by decide) (by decide) (by decide) (by decide)

/-! ## Claim C6: non-greedy, left-to-right matching; unmatched markers untouched -/

theorem occursIn_singleton_eq_false {a : Char} : ∀ {l : List Char},
    occursIn [a] l = false ↔ a ∉ l := by
  intro l
  induction l with
  | nil => simp [occursIn]
  | cons c rest ih =>
    rw [occursIn_cons, Bool.or_eq_false_iff]
    constructor
    · rintro ⟨h1, h2⟩
      intro hmem
      rcases List.mem_cons.mp hmem with rfl | hmem
      · have : List.isPrefixOf [a] (a :: rest) = true := by
          simp [List.isPrefixOf]
        simp [this] at h1
      · exact (ih.mp h2) hmem
    · intro h
      refine ⟨?_, ih.mpr (fun hmem => h (List.mem_cons_of_mem c hmem))⟩
      cases hx : List.isPrefixOf [a] (c :: rest) with
      | false => rfl
      | true =>
        obtain ⟨t, ht⟩ := List.isPrefixOf_iff_prefix.mp hx
        have hac : a = c ∧ t = rest := by simpa using ht
        obtain ⟨rfl, -⟩ := hac
        exact absurd (List.mem_cons_self a rest) h

theorem isPrefixOf_singleton_head {a c : Char} {rest : List Char}
    (h : List.isPrefixOf [a] (c :: rest) = true) : c = a := by
  obtain ⟨t, ht⟩ := List.isPrefixOf_iff_prefix.mp h
  have hac : a = c ∧ t = rest := by simpa using ht
  exact hac.1.symm

/-- If a string holds at most one `^`, `addSuperScript` leaves it unchanged. -/
theorem addSuperScriptL_of_count_le_one :
    ∀ (n : Nat) (s : List Char), s.length ≤ n → s.count '^' ≤ 1 →
      addSuperScriptL s = s := by
  intro n
  induction n with
  | zero =>
    intro s h _
    have : s = [] := List.length_eq_zero.mp (Nat.le_zero.mp h)
    subst this; rfl
  | succ n ih =>
    intro s h hcount
    match s with
    | [] => rfl
    | c :: rest =>
      have hlt : rest.length ≤ n := by simp only [List.length_cons] at h; omega
      cases hp : List.isPrefixOf ['^'] (c :: rest) with
      | false =>
        rw [show addSuperScriptL (c :: rest) = c :: addSuperScriptL rest from
          jsReplace_cons_not_open hp]
        have hc : rest.count '^' ≤ 1 := by
          rw [List.count_cons] at hcount; omega
        rw [ih rest hlt hc]
      | true =>
        have hc : c = '^' := isPrefixOf_singleton_head hp
        subst hc
        have hrest : rest.count '^' = 0 := by
          rw [List.count_cons] at hcount
          simp at hcount
          omega
        have hnotmem : '^' ∉ rest := by
          rw [← List.count_eq_zero]
          exact hrest
        have hfc : findClose ['^'] rest = none := by
          cases hx : findClose ['^'] rest with
          | none => rfl
          | some p =>
            obtain ⟨cap, rem⟩ := p
            have happ := findClose_append hx
            have hmem : '^' ∈ rest := by rw [happ]; simp
            exact absurd hmem hnotmem
        rw [show addSuperScriptL ('^' :: rest) = '^' :: addSuperScriptL rest from
          jsReplace_cons_fail hp hfc]
        rw [ih rest hlt (by omega)]

/-- C6: matching is non-greedy and left-to-right.  For each of the three
rules the capture is the shortest span before the next closing marker
(`findClose` splits the input as `capture ++ close ++ rest` with no earlier
occurrence of the closing marker inside the capture); a string with at most
one `^` is returned unchanged by `addSuperScript` (unmatched single marker,
as in `"price: ^5 dollars"`), and five markers pair left-to-right without
overlap, leaving the final unmatched marker verbatim. -/
theorem inline_rules_non_greedy_left_to_right :
    (addSuperScript "price: ^5 dollars" = "price: ^5 dollars") ∧
    (∀ (s cap rem : List Char), findClose ['=', '='] s = some (cap, rem) →
      s = cap ++ ['=', '='] ++ rem ∧ occursIn ['=', '='] cap = false) ∧
    (∀ (s cap rem : List Char), findClose ['^'] s = some (cap, rem) →
      s = cap ++ ['^'] ++ rem ∧ '^' ∉ cap) ∧
    (∀ (s cap rem : List Char), findClose ['-', '_'] s = some (cap, rem) →
      s = cap ++ ['-', '_'] ++ rem ∧ occursIn ['-', '_'] cap = false) ∧
    (∀ s : String, s.data.count '^' ≤ 1 → addSuperScript s = s) ∧
    (addSuperScript "^a^b^c^d^" =
      "<sup class=\"suptext\">a</sup>b<sup class=\"suptext\">c</sup>d^") := by
  refine ⟨by decide, ?_, ?_, ?_, ?_, by decide⟩
  · intro s cap rem h
    exact ⟨findClose_append h, findClose_cap_no_close (by decide) h⟩
  · intro s cap rem h
    exact ⟨findClose_append h,
      occursIn_singleton_eq_false.mp (findClose_cap_no_close (by decide) h)⟩
  · intro s cap rem h
    exact ⟨findClose_append h, findClose_cap_no_close (by decide) h⟩
  · intro s h
    cases s with
    | mk d =>
      show String.mk (addSuperScriptL d) = String.mk d
      rw [addSuperScriptL_of_count_le_one d.length d (le_refl d.length) h]

/-- Witness for C6 at the unmatched-marker literal. -/
theorem inline_rules_non_greedy_left_to_right_witness :
    ("price: ^5 dollars".data.count '^' ≤ 1) ∧
    addSuperScript "price: ^5 dollars" = "price: ^5 dollars" :=
  ⟨by decide, inline_rules_non_greedy_left_to_right.2.2.2.2.1 "price: ^5 dollars" (by decide)⟩

/-! ## Claim C8: URL-suffix activation gate of `renderMarkdown` -/

/-- JavaScript `String.prototype.endsWith`. -/
def jsEndsWith (s suffix : String) : Bool := suffix.data.isSuffixOf s.data

/-- The markdown-file test of src/src/content.js lines 347-349 (also
src/core/addTag.js lines 155-157). -/
def isMarkdownFile (path : String) : Bool :=
  jsEndsWith path ".md" || jsEndsWith path ".markdown" || jsEndsWith path ".mdown"

/-- The document state `renderMarkdown` observes and mutates: the text content
of the page's first `pre` element (`none` when absent), the URL path, and the
rendered body. -/
structure PageDoc where
  preText : Option String
  path : String
  body : String
deriving DecidableEq

/-- The activation logic of `renderMarkdown` (src/src/content.js lines
339-355): return with no document mutation when there is no `pre` source
element or its text content is empty, or when the path is not a recognized
Markdown file; otherwise replace the body with the pipeline's rendering (the
unified processor chain is an external capability, passed here as
`pipeline`). -/
def renderMarkdown (pipeline : String → String) (doc : PageDoc) : PageDoc :=
  match doc.preText with
  | none => doc
  | some t =>
    if t = "" then doc
    else if !(isMarkdownFile doc.path) then doc
    else { doc with body := pipeline t }

/-- C8: on a page whose URL path does not end in `.md`, `.markdown` or
`.mdown`, `renderMarkdown` returns before any mutation: the document is left
exactly as it was, whatever rendering pipeline is supplied; and those three
suffixes are precisely the recognized ones. -/
theorem renderMarkdown_no_op_on_non_markdown_path :
    (∀ (pipeline : String → String) (doc : PageDoc),
      isMarkdownFile doc.path = false → renderMarkdown pipeline doc = doc) ∧
    isMarkdownFile "/notes/readme.md" = true ∧
    isMarkdownFile "/a/b.markdown" = true ∧
    isMarkdownFile "/a/b.mdown" = true ∧
    isMarkdownFile "/a/b.txt" = false := by
  refine ⟨?_, by decide, by decide, by decide, by decide⟩
  intro pipeline doc h
  unfold renderMarkdown
  match hd : doc.preText with
  | none => rfl
  | some t =>
    by_cases ht : t = ""
    · simp [ht]
    · simp [ht, h]

/-- Witness for C8 on a concrete non-markdown page. -/
theorem renderMarkdown_no_op_on_non_markdown_path_witness :
    isMarkdownFile "/plain.txt" = false ∧
    renderMarkdown (fun t => t) ⟨some "# hi", "/plain.txt", "body"⟩ =
      ⟨some "# hi", "/plain.txt", "body"⟩ :=
  ⟨by decide,
    renderMarkdown_no_op_on_non_markdown_path.1 (fun t => t)
      ⟨some "# hi", "/plain.txt", "body"⟩ (by decide)⟩

/-! ## Claim C1: the TextNodeWalker and code/pre regions -/

/-- A node of the live rendered DOM as the walker observes it: elements carry
an (uppercase, as `Element.tagName` reports it) tag and ordered children;
text nodes carry their character data. -/
inductive DNode where
  | text (value : String)
  | elem (tag : String) (children : List DNode)

/-- The whitespace class removed by JavaScript `String.prototype.trim`. -/
def isJsWhitespace (c : Char) : Bool :=
  c = ' ' || c = '\t' || c = '\n' || c = '\r' || c = '\x0b' || c = '\x0c' ||
  c = ' ' || c = ' ' || (' ' ≤ c && c ≤ ' ') ||
  c = ' ' || c = ' ' || c = ' ' || c = ' ' ||
  c = '　' || c = '﻿'

/-- `!node.textContent.trim()`: true exactly when the text is all whitespace. -/
def jsTrimEmpty (s : String) : Bool := s.data.all isJsWhitespace

/-- Recognize one of the three opening tags the inline rewriter can emit,
returning the DOM tag name, the matching closing tag and the input after the
opening tag. -/
def openTagOf (s : List Char) : Option (String × List Char × List Char) :=
  if ("<mark>".data).isPrefixOf s then
    some ("MARK", "</mark>".data, s.drop "<mark>".data.length)
  else if ("<sup class=\"suptext\">".data).isPrefixOf s then
    some ("SUP", "</sup>".data, s.drop "<sup class=\"suptext\">".data.length)
  else if ("<sub class=\"subtext\">".data).isPrefixOf s then
    some ("SUB", "</sub>".data, s.drop "<sub class=\"subtext\">".data.length)
  else none

/-- Modelled from the spec: the markup-fragment parsing of the TextNodeWalker
substitution step ("parse the result as a small fragment of markup and replace
the original text node ... with the parsed fragment's nodes").  The source
delegates this to the browser (`tempDiv.innerHTML = content`,
src/src/content.js lines 152-160), which is outside the repository.  The model
parses nested occurrences of the three tags the rewriter emits, uppercasing
tag names as the DOM does, and treats everything else as character data;
`closing` is the closing tag of the enclosing element (`[]` at top level). -/
def parseNodes : Nat → List Char → List Char → List DNode × List Char
  | 0, _, s => ([], s)
  | _ + 1, _, [] => ([], [])
  | fuel + 1, closing, c :: rest =>
    if !closing.isEmpty && closing.isPrefixOf (c :: rest) then
      ([], (c :: rest).drop closing.length)
    else
      match openTagOf (c :: rest) with
      | some (name, closeTag, after) =>
        let pc := parseNodes fuel closeTag after
        let ps := parseNodes fuel closing pc.2
        (DNode.elem name pc.1 :: ps.1, ps.2)
      | none =>
        let t := (c :: rest).takeWhile (fun x => x ≠ '<')
        if t.isEmpty then
          let ps := parseNodes fuel closing rest
          (DNode.text (String.mk ['<']) :: ps.1, ps.2)
        else
          let ps := parseNodes fuel closing ((c :: rest).drop t.length)
          (DNode.text (String.mk t) :: ps.1, ps.2)

/-- The parsed fragment a rewritten text node is replaced with. -/
def parseFragment (s : String) : List DNode := (parseNodes s.data.length [] s.data).1

mutual
/-- The walk over one collected node of the TreeWalker
(src/src/content.js lines 121-162): a text node is rejected — left in place —
when its trimmed content is empty or its immediate parent element's tag is
`CODE` or `PRE`; otherwise the composed rewriter runs on its data and, when
the result differs, the node is replaced in place by the parsed fragment's
nodes.  Elements are transparent to a `SHOW_TEXT` walker: the traversal
descends through them regardless of their tag. -/
def walkRewrite (parentTag : String) : DNode → List DNode
  | DNode.text v =>
    if jsTrimEmpty v || parentTag == "CODE" || parentTag == "PRE" then [DNode.text v]
    else
      let v' := transformAll v
      if v' == v then [DNode.text v] else parseFragment v'
  | DNode.elem t cs => [DNode.elem t (walkRewriteList t cs)]

/-- The walk over a list of siblings, each seeing `parentTag` as its
immediate parent element's tag. -/
def walkRewriteList (parentTag : String) : List DNode → List DNode
  | [] => []
  | c :: cs => walkRewrite parentTag c ++ walkRewriteList parentTag cs
end

/-- `applyTextTransformationsToTextNodes` (src/src/content.js lines 116-163):
return immediately when the root element's tag is `SCRIPT`, `STYLE`, `CODE`
or `PRE`; otherwise collect and rewrite the eligible text nodes below it.
(The source's two-phase collect-then-mutate is equivalent to this direct
rewrite because replacements happen at the positions of the originally
collected nodes and are not re-visited.) -/
def applyTextTransformationsToTextNodes (element : DNode) : DNode :=
  match element with
  | DNode.elem t cs =>
    if t == "SCRIPT" || t == "STYLE" || t == "CODE" || t == "PRE" then element
    else DNode.elem t (walkRewriteList t cs)
  | DNode.text v => DNode.text v

mutual
/-- All text-node data of a tree, in document order. -/
def textValues : DNode → List String
  | DNode.text v => [v]
  | DNode.elem _ cs => textValuesList cs

/-- All text-node data below a list of siblings, in document order. -/
def textValuesList : List DNode → List String
  | [] => []
  | c :: cs => textValues c ++ textValuesList cs
end

/-- C1 counterexample: a `PRE` block whose literal text `"==x=="` sits under
an intermediate wrapper element (as `rehype-highlight` spans do) is rewritten
by the walk — the text does not remain `"==x=="`; the walker's filter only
shields text whose immediate parent is `CODE` or `PRE`. -/
theorem walker_rewrites_text_nested_under_pre :
    applyTextTransformationsToTextNodes
        (DNode.elem "DIV" [DNode.elem "PRE" [DNode.elem "SPAN" [DNode.text "==x=="]]]) =
      DNode.elem "DIV" [DNode.elem "PRE" [DNode.elem "SPAN"
        [DNode.elem "MARK" [DNode.text "x"]]]] ∧
    textValues (applyTextTransformationsToTextNodes
        (DNode.elem "DIV" [DNode.elem "PRE" [DNode.elem "SPAN" [DNode.text "==x=="]]])) ≠
      ["==x=="] := by
  constructor
  · rfl
  · intro h
    have : (["x"] : List String) = ["==x=="] := h
    simp at this

/-- C1 (amended): the walk never rewrites a text node whose immediate parent
element is `PRE` or `CODE`, and when the root element itself is one of the
four excluded tags the whole subtree is returned unchanged; deeper text under
`PRE`/`CODE` behind intermediate wrapper elements is not protected. -/
theorem walker_preserves_direct_code_pre_text :
    (∀ (p : String) (v : String), p = "PRE" ∨ p = "CODE" →
      walkRewrite p (DNode.text v) = [DNode.text v]) ∧
    (∀ (t : String) (cs : List DNode),
      t = "SCRIPT" ∨ t = "STYLE" ∨ t = "CODE" ∨ t = "PRE" →
      applyTextTransformationsToTextNodes (DNode.elem t cs) = DNode.elem t cs) := by
  constructor
  · intro p v h
    rcases h with rfl | rfl
    · simp [walkRewrite]
    · simp [walkRewrite]
  · intro t cs h
    rcases h with rfl | rfl | rfl | rfl <;> simp [applyTextTransformationsToTextNodes]

/-- Witness for the amended C1 at concrete nodes. -/
theorem walker_preserves_direct_code_pre_text_witness :
    walkRewrite "PRE" (DNode.text "==x==") = [DNode.text "==x=="] ∧
    applyTextTransformationsToTextNodes (DNode.elem "CODE" [DNode.text "==x=="]) =
      DNode.elem "CODE" [DNode.text "==x=="] :=
  ⟨walker_preserves_direct_code_pre_text.1 "PRE" "==x==" (Or.inl rfl),
   walker_preserves_direct_code_pre_text.2 "CODE" [DNode.text "==x=="]
     (Or.inr (Or.inr (Or.inl rfl)))⟩

/-! ## The hast-like tree the two decorators operate on -/

/-- The slice of a hast node's `properties` object that the two decorators
read or write: the class token list, the `data-language` attribute and the
`title` attribute. -/
structure HProps where
  className : Option (List String) := none
  dataLanguage : Option String := none
  title : Option String := none
deriving DecidableEq

/-- A node of the parsed (pre-serialization) document tree: `element` carries
a tag name, an optional `properties` object, the node's `data.value` (if any)
and its children; `text` carries character data; `containerDirective` is the
remark-directive container node with its name, `data.value` and children. -/
inductive HNode where
  | element (tagName : String) (props : Option HProps) (dataValue : Option String)
      (children : List HNode)
  | text (value : String)
  | containerDirective (name : String) (dataValue : Option String) (children : List HNode)

/-- `node.data?.value` as the admonition decorator reads it off a child. -/
def hDataValue : HNode → Option String
  | HNode.element _ _ dv _ => dv
  | HNode.text _ => none
  | HNode.containerDirective _ dv _ => dv

/-- Language to Font Awesome icon mapping (src/src/content.js lines 25-83). -/
def languageIcons : List (String × String) :=
  [("javascript", "fab fa-js-square"), ("js", "fab fa-js-square"),
   ("typescript", "fab fa-js-square"), ("ts", "fab fa-js-square"),
   ("python", "fab fa-python"), ("py", "fab fa-python"),
   ("java", "fab fa-java"), ("php", "fab fa-php"),
   ("html", "fab fa-html5"), ("css", "fab fa-css3-alt"),
   ("scss", "fab fa-sass"), ("sass", "fab fa-sass"),
   ("less", "fab fa-less"), ("react", "fab fa-react"),
   ("jsx", "fab fa-react"), ("vue", "fab fa-vuejs"),
   ("angular", "fab fa-angular"), ("node", "fab fa-node-js"),
   ("nodejs", "fab fa-node-js"), ("npm", "fab fa-npm"),
   ("yarn", "fab fa-yarn"), ("docker", "fab fa-docker"),
   ("git", "fab fa-git-alt"), ("github", "fab fa-github"),
   ("gitlab", "fab fa-gitlab"), ("bitbucket", "fab fa-bitbucket"),
   ("go", "fas fa-code"), ("golang", "fas fa-code"),
   ("rust", "fas fa-cog"), ("cpp", "fas fa-code"),
   ("c++", "fas fa-code"), ("c", "fas fa-code"),
   ("csharp", "fas fa-code"), ("c#", "fas fa-code"),
   ("swift", "fab fa-swift"), ("kotlin", "fas fa-code"),
   ("ruby", "fas fa-gem"), ("rb", "fas fa-gem"),
   ("shell", "fas fa-terminal"), ("bash", "fas fa-terminal"),
   ("sh", "fas fa-terminal"), ("powershell", "fas fa-terminal"),
   ("sql", "fas fa-database"), ("mysql", "fas fa-database"),
   ("postgresql", "fas fa-database"), ("mongodb", "fas fa-database"),
   ("json", "fas fa-file-code"), ("xml", "fas fa-code"),
   ("yaml", "fas fa-file-code"), ("yml", "fas fa-file-code"),
   ("toml", "fas fa-file-code"), ("ini", "fas fa-file-code"),
   ("markdown", "fab fa-markdown"), ("md", "fab fa-markdown"),
   ("text", "fas fa-file-alt"), ("txt", "fas fa-file-alt"),
   ("default", "fas fa-code")]

/-- `languageIcons[language] || languageIcons.default` (content.js line 193):
the default entry `'fas fa-code'` is used when the key is absent (or its value
falsy). -/
def languageIconFor (language : String) : String :=
  match languageIcons.lookup language with
  | some v => if v = "" then "fas fa-code" else v
  | none => "fas fa-code"

/-- JavaScript `String.replace` with a plain-string pattern: replace the first
occurrence only (on the empty input the result is empty; the source only uses
a nonempty pattern that is a prefix of the subject). -/
def replaceFirstL (pat repl : List Char) : List Char → List Char
  | [] => []
  | c :: rest =>
    if pat.isPrefixOf (c :: rest) then repl ++ (c :: rest).drop pat.length
    else c :: replaceFirstL pat repl rest

/-- `s.replace(pat, repl)` for string patterns. -/
def jsReplaceFirst (s pat repl : String) : String :=
  String.mk (replaceFirstL pat.data repl.data s.data)

theorem replaceFirstL_of_pfx {repl x : List Char} {p : Char} {ps : List Char} :
    replaceFirstL (p :: ps) repl ((p :: ps) ++ x) = repl ++ x := by
  have hp : (p :: ps).isPrefixOf (p :: (ps ++ x)) = true :=
    List.isPrefixOf_iff_prefix.mpr ⟨x, by simp⟩
  show replaceFirstL (p :: ps) repl (p :: (ps ++ x)) = repl ++ x
  unfold replaceFirstL
  rw [hp]
  simp only [if_true]
  congr 1
  exact List.drop_left (p :: ps) x

/-- Stripping the `language-` prefix with `String.replace` recovers the
language identifier. -/
theorem jsReplaceFirst_strip_language (X : String) :
    jsReplaceFirst ("language-" ++ X) "language-" "" = X := by
  cases X with
  | mk d =>
    show String.mk (replaceFirstL "language-".data "".data ("language-".data ++ d)) =
      String.mk d
    rw [show ("language-".data : List Char) =
      'l' :: "anguage-".data from rfl]
    rw [replaceFirstL_of_pfx]
    rfl

/-- `String.prototype.toLowerCase` (character-wise). -/
def jsToLower (s : String) : String := String.mk (s.data.map Char.toLower)

/-- `String.prototype.toUpperCase` (character-wise). -/
def jsToUpper (s : String) : String := String.mk (s.data.map Char.toUpper)

/-- `String.prototype.startsWith`. -/
def jsStartsWith (s pre : String) : Bool := pre.data.isPrefixOf s.data

/-- Splitting accumulator for `String.prototype.split(' ')`. -/
def splitCharAux (sep : Char) : List Char → List Char → List String
  | [], acc => [String.mk acc.reverse]
  | c :: rest, acc =>
    if c = sep then String.mk acc.reverse :: splitCharAux sep rest []
    else splitCharAux sep rest (c :: acc)

/-- `s.split(' ')` as the decorators use it on icon-class strings. -/
def jsSplitOnSpace (s : String) : List String := splitCharAux ' ' s.data []

/-- The visitor callback of `rehypeCodeLanguageIcons`
(src/src/content.js lines 180-222), acting on a single node: on a `pre`
element, find the first `code` element child; if it has a class list whose
first `language-…` token names a language, lowercase it, add the
`has-language` class and the `data-language` attribute to the `pre`, and
prepend the icon block (a `div.language-icon` wrapping an `i` whose classes
are the icon table entry split on spaces, titled with the uppercased
language); otherwise leave the node untouched. -/
def codeLanguageIconNode (node : HNode) : HNode :=
  match node with
  | HNode.element tag props dv cs =>
    if tag = "pre" then
      match cs.find? (fun child =>
        match child with
        | HNode.element t _ _ _ => t == "code"
        | _ => false) with
      | some (HNode.element _ (some cp) _ _) =>
        match cp.className with
        | some classes =>
          match classes.find? (fun cls => jsStartsWith cls "language-") with
          | some languageClass =>
            let language := jsToLower (jsReplaceFirst languageClass "language-" "")
            let iconClass := languageIconFor language
            let props0 := props.getD {}
            let className0 := props0.className.getD []
            HNode.element tag
              (some { props0 with
                className := some (className0 ++ ["has-language"]),
                dataLanguage := some language }) dv
              (HNode.element "div" (some { className := some ["language-icon"] }) none
                [HNode.element "i"
                  (some { className := some (jsSplitOnSpace iconClass),
                          title := some (jsToUpper language) }) none []] :: cs)
          | none => node
        | none => node
      | _ => node
    else node
  | _ => node

/-- The recognized admonition kinds (src/src/content.js line 228). -/
def admonitionTypes : List String :=
  ["note", "tip", "important", "success", "warning", "caution", "danger", "error"]

/-- Kind to icon mapping (src/src/content.js lines 229-238). -/
def admonitionIcons : List (String × String) :=
  [("note", "fas fa-info-circle"), ("tip", "fas fa-lightbulb"),
   ("important", "fas fa-exclamation-circle"), ("success", "fas fa-check-circle"),
   ("warning", "fas fa-exclamation-triangle"), ("caution", "fas fa-exclamation-triangle"),
   ("danger", "fas fa-skull-crossbones"), ("error", "fas fa-times-circle")]

/-- `admonitionIcons[type] || 'fas fa-info-circle'` (content.js line 252). -/
def admonitionIconFor (type : String) : String :=
  match admonitionIcons.lookup type with
  | some v => if v = "" then "fas fa-info-circle" else v
  | none => "fas fa-info-circle"

/-- `type.charAt(0).toUpperCase() + type.slice(1)` (content.js line 251). -/
def capitalizeFirst (s : String) : String :=
  match s.data with
  | [] => ""
  | c :: cs => String.mk (c.toUpper :: cs)

/-- `node.children[0]?.data?.value || <capitalized kind>` (content.js line
251): the first child's data value when it exists and is truthy (nonempty),
else the capitalized kind name. -/
def admonitionTitleText (type : String) (children : List HNode) : String :=
  match children.head? with
  | some c =>
    match hDataValue c with
    | some v => if v = "" then capitalizeFirst type else v
    | none => capitalizeFirst type
  | none => capitalizeFirst type

/-- The visitor callback of `rehypeAdmonitions`
(src/src/content.js lines 241-281), acting on a single node: a container
directive whose lowercased name is a recognized admonition kind is converted
in place into a `div.admonition.admonition-<kind>` whose children are rebuilt
as a title block (icon element plus a text node of a space and the title) and
a content block holding all original children except the first; any other
node is left untouched. -/
def admonitionNode (node : HNode) : HNode :=
  match node with
  | HNode.containerDirective name dv cs =>
    let type := jsToLower name
    if admonitionTypes.contains type then
      let titleText := admonitionTitleText type cs
      let titleIconClass := admonitionIconFor type
      HNode.element "div"
        (some { className := some ["admonition", "admonition-" ++ type] }) dv
        [HNode.element "div" (some { className := some ["admonition-title"] }) none
          [HNode.element "i" (some { className := some (jsSplitOnSpace titleIconClass) })
            none [],
           HNode.text (" " ++ titleText)],
         HNode.element "div" (some { className := some ["admonition-content"] }) none
           (cs.drop 1)]
    else node
  | _ => node

/-! ## Claim C2: admonition conversion -/

/-- C2: a container directive whose lowercased name is a recognized
admonition kind is converted in place to a `div` with classes
`["admonition", "admonition-<kind>"]` and exactly two children — a title
block holding the kind's icon element and a text node of a single space plus
the title text, and a content block holding all original children but the
first; the title text is the first child's data value when present and
nonempty, else the capitalized kind (`"WARNING"` with no title data yields
`" Warning"`); an unrecognized directive such as `"foobar"` is left as an
unconverted directive node. -/
theorem rehypeAdmonitions_converts_recognized :
    (∀ (name : String) (dv : Option String) (cs : List HNode),
      admonitionTypes.contains (jsToLower name) = true →
      admonitionNode (HNode.containerDirective name dv cs) =
        HNode.element "div"
          (some { className := some ["admonition", "admonition-" ++ jsToLower name] }) dv
          [HNode.element "div" (some { className := some ["admonition-title"] }) none
            [HNode.element "i"
              (some { className := some ((admonitionIconFor (jsToLower name)) |> jsSplitOnSpace) })
              none [],
             HNode.text (" " ++ admonitionTitleText (jsToLower name) cs)],
           HNode.element "div" (some { className := some ["admonition-content"] }) none
             (cs.drop 1)]) ∧
    (∀ (type : String) (cs : List HNode) (c : HNode) (v : String),
      cs.head? = some c → hDataValue c = some v → v ≠ "" →
      admonitionTitleText type cs = v) ∧
    (∀ (type : String) (cs : List HNode),
      (∀ c, cs.head? = some c → hDataValue c = none) →
      admonitionTitleText type cs = capitalizeFirst type) ∧
    (admonitionNode (HNode.containerDirective "WARNING" none []) =
      HNode.element "div"
        (some { className := some ["admonition", "admonition-warning"] }) none
        [HNode.element "div" (some { className := some ["admonition-title"] }) none
          [HNode.element "i"
            (some { className := some ["fas", "fa-exclamation-triangle"] }) none [],
           HNode.text " Warning"],
         HNode.element "div" (some { className := some ["admonition-content"] }) none []]) ∧
    (∀ (dv : Option String) (cs : List HNode),
      admonitionNode (HNode.containerDirective "foobar" dv cs) =
        HNode.containerDirective "foobar" dv cs) := by
  refine ⟨?_, ?_, ?_, ?_, ?_⟩
  · intro name dv cs h
    have hmem : jsToLower name ∈ admonitionTypes := by simpa using h
    simp [admonitionNode, hmem]
  · intro type cs c v h1 h2 h3
    simp [admonitionTitleText, h1, h2, h3]
  · intro type cs h
    cases hh : cs.head? with
    | none => simp [admonitionTitleText, hh]
    | some c => simp [admonitionTitleText, hh, h c hh]
  · rfl
  · intro dv cs
    have hx : jsToLower "foobar" ∉ admonitionTypes := by decide
    simp [admonitionNode, hx]

/-- Witness for C2 at the `"WARNING"` directive with no children. -/
theorem rehypeAdmonitions_converts_recognized_witness :
    admonitionTypes.contains (jsToLower "WARNING") = true ∧
    admonitionNode (HNode.containerDirective "WARNING" none []) =
      HNode.element "div"
        (some { className := some ["admonition", "admonition-" ++ jsToLower "WARNING"] })
        none
        [HNode.element "div" (some { className := some ["admonition-title"] }) none
          [HNode.element "i"
            (some { className := some ((admonitionIconFor (jsToLower "WARNING")) |> jsSplitOnSpace) })
            none [],
           HNode.text (" " ++ admonitionTitleText (jsToLower "WARNING") [])],
         HNode.element "div" (some { className := some ["admonition-content"] }) none
           (([] : List HNode).drop 1)] :=
  ⟨by decide, rehypeAdmonitions_converts_recognized.1 "WARNING" none [] (by decide)⟩

/-! ## Claim C10: the directive's first child is consumed unconditionally -/

/-- C10: for every recognized directive the converted node has exactly two
children, and the second holds precisely the original children from index 1
onward — the original first child is consumed even when it carries no data
value; a recognized directive with no children yields the default title and
an empty content block. -/
theorem rehypeAdmonitions_consumes_first_child :
    (∀ (name : String) (dv : Option String) (cs : List HNode),
      admonitionTypes.contains (jsToLower name) = true →
      ∃ title : HNode,
        admonitionNode (HNode.containerDirective name dv cs) =
          HNode.element "div"
            (some { className := some ["admonition", "admonition-" ++ jsToLower name] }) dv
            [title,
             HNode.element "div" (some { className := some ["admonition-content"] }) none
               (cs.drop 1)]) ∧
    (admonitionNode (HNode.containerDirective "note" none []) =
      HNode.element "div"
        (some { className := some ["admonition", "admonition-note"] }) none
        [HNode.element "div" (some { className := some ["admonition-title"] }) none
          [HNode.element "i" (some { className := some ["fas", "fa-info-circle"] }) none [],
           HNode.text " Note"],
         HNode.element "div" (some { className := some ["admonition-content"] }) none []]) := by
  constructor
  · intro name dv cs h
    refine ⟨HNode.element "div" (some { className := some ["admonition-title"] }) none
      [HNode.element "i"
        (some { className := some ((admonitionIconFor (jsToLower name)) |> jsSplitOnSpace) }) none [],
       HNode.text (" " ++ admonitionTitleText (jsToLower name) cs)], ?_⟩
    have hmem : jsToLower name ∈ admonitionTypes := by simpa using h
    simp [admonitionNode, hmem]
  · rfl

/-- Witness for C10 at a `"tip"` directive with two children. -/
theorem rehypeAdmonitions_consumes_first_child_witness :
    admonitionTypes.contains (jsToLower "tip") = true ∧
    ∃ title : HNode,
      admonitionNode (HNode.containerDirective "tip" none
          [HNode.text "a", HNode.text "b"]) =
        HNode.element "div"
          (some { className := some ["admonition", "admonition-" ++ jsToLower "tip"] }) none
          [title,
           HNode.element "div" (some { className := some ["admonition-content"] }) none
             ([HNode.text "a", HNode.text "b"].drop 1)] :=
  ⟨by decide, rehypeAdmonitions_consumes_first_child.1 "tip" none
    [HNode.text "a", HNode.text "b"] (by decide)⟩

/-! ## Claim C3: language icons on fenced code blocks -/

/-- C3: a `pre` whose (first) `code` element child's class list has
`language-<X>` as its first `language-` token gains the `has-language` class
and a `data-language` attribute holding the lowercased `X`, and an icon block
is prepended as the `pre`'s first child — a `div.language-icon` wrapping an
`i` whose class tokens are the icon table's entry for the lowercased `X`
(the default `fas fa-code` when absent) split on spaces, titled with the
uppercased language; a `pre` whose code child carries no `language-` token —
including a code child with no properties or no class list at all — or that
has no code child is left completely unmodified. -/
theorem rehypeCodeLanguageIcons_decorates :
    (∀ (props : Option HProps) (dv : Option String) (cs : List HNode)
       (ctag : String) (cp : HProps) (cdv : Option String) (ccs : List HNode)
       (classes : List String) (X : String),
      cs.find? (fun child =>
        match child with
        | HNode.element t _ _ _ => t == "code"
        | _ => false) = some (HNode.element ctag (some cp) cdv ccs) →
      cp.className = some classes →
      classes.find? (fun cls => jsStartsWith cls "language-") = some ("language-" ++ X) →
      codeLanguageIconNode (HNode.element "pre" props dv cs) =
        HNode.element "pre"
          (some { (props.getD {}) with
            className := some ((props.getD {}).className.getD [] ++ ["has-language"]),
            dataLanguage := some (jsToLower X) }) dv
          (HNode.element "div" (some { className := some ["language-icon"] }) none
            [HNode.element "i"
              (some { className := some ((languageIconFor (jsToLower X)) |> jsSplitOnSpace),
                      title := some (jsToUpper (jsToLower X)) }) none []] :: cs)) ∧
    (∀ (props : Option HProps) (dv : Option String) (cs : List HNode),
      (∀ (ctag : String) (cp : HProps) (cdv : Option String) (ccs : List HNode)
         (classes : List String),
        cs.find? (fun child =>
          match child with
          | HNode.element t _ _ _ => t == "code"
          | _ => false) = some (HNode.element ctag (some cp) cdv ccs) →
        cp.className = some classes →
        classes.find? (fun cls => jsStartsWith cls "language-") = none) →
      codeLanguageIconNode (HNode.element "pre" props dv cs) =
        HNode.element "pre" props dv cs) ∧
    (∀ (props : Option HProps) (dv : Option String) (cs : List HNode),
      cs.find? (fun child =>
        match child with
        | HNode.element t _ _ _ => t == "code"
        | _ => false) = none →
      codeLanguageIconNode (HNode.element "pre" props dv cs) =
        HNode.element "pre" props dv cs) := by
  refine ⟨?_, ?_, ?_⟩
  · intro props dv cs ctag cp cdv ccs classes X hfind hcls hlang
    simp [codeLanguageIconNode, hfind, hcls, hlang, jsReplaceFirst_strip_language]
  · intro props dv cs hno
    cases hfind : cs.find? (fun child =>
        match child with
        | HNode.element t _ _ _ => t == "code"
        | _ => false) with
    | none => simp [codeLanguageIconNode, hfind]
    | some child =>
      match child with
      | HNode.text v => simp [codeLanguageIconNode, hfind]
      | HNode.containerDirective nm dvv cds => simp [codeLanguageIconNode, hfind]
      | HNode.element ctag cp cdv ccs =>
        match cp with
        | none => simp [codeLanguageIconNode, hfind]
        | some p =>
          cases hcls : p.className with
          | none => simp [codeLanguageIconNode, hfind, hcls]
          | some classes =>
            have hlang := hno ctag p cdv ccs classes hfind hcls
            simp [codeLanguageIconNode, hfind, hcls, hlang]
  · intro props dv cs hfind
    simp [codeLanguageIconNode, hfind]

/-- Witness for C3 at a `language-python` fenced block and at a plain
language-less fence whose code child carries no properties. -/
theorem rehypeCodeLanguageIcons_decorates_witness :
    ([HNode.element "code" (some { className := some ["language-python"] }) none
        ([] : List HNode)].find? (fun child =>
        match child with
        | HNode.element t _ _ _ => t == "code"
        | _ => false) =
      some (HNode.element "code" (some { className := some ["language-python"] }) none [])) ∧
    codeLanguageIconNode
        (HNode.element "pre" none none
          [HNode.element "code" (some { className := some ["language-python"] }) none []]) =
      HNode.element "pre"
        (some { ((none : Option HProps).getD {}) with
          className := some
            (((none : Option HProps).getD {}).className.getD [] ++ ["has-language"]),
          dataLanguage := some (jsToLower "python") }) none
        (HNode.element "div" (some { className := some ["language-icon"] }) none
          [HNode.element "i"
            (some { className := some ((languageIconFor (jsToLower "python")) |> jsSplitOnSpace),
                    title := some (jsToUpper (jsToLower "python")) }) none []] ::
          [HNode.element "code" (some { className := some ["language-python"] }) none []]) ∧
    codeLanguageIconNode
        (HNode.element "pre" none none [HNode.element "code" none none []]) =
      HNode.element "pre" none none [HNode.element "code" none none []] :=
  ⟨rfl, rehypeCodeLanguageIcons_decorates.1 none none
    [HNode.element "code" (some { className := some ["language-python"] }) none []]
    "code" { className := some ["language-python"] } none [] ["language-python"] "python"
    rfl rfl rfl,
   rehypeCodeLanguageIcons_decorates.2.1 none none [HNode.element "code" none none []]
    (by
      intro ctag cp cdv ccs classes hfind hcls
      rw [show ([HNode.element "code" none none []].find? (fun child =>
          match child with
          | HNode.element t _ _ _ => t == "code"
          | _ => false)) = some (HNode.element "code" none none []) from rfl] at hfind
      injection hfind with h
      injection h with h1 h2 h3 h4
      exact Option.noConfusion h2)⟩

/-! ## Claim C4: idempotence of the composed rewriter -/

/-- C4 counterexample: the composed rewriter is not idempotent.  The input
`"_-a_-b-_ c-_"` contains none of the three output tag strings, yet a second
application rewrites again: the first pass's subscript capture `"a_-b"`
retains a `_-` marker which pairs with the trailing `-_` of the output on the
second pass. -/
theorem composed_rewriter_not_idempotent :
    occursIn "<mark>".data "_-a_-b-_ c-_".data = false ∧
    occursIn "<sup class=\"suptext\">".data "_-a_-b-_ c-_".data = false ∧
    occursIn "<sub class=\"subtext\">".data "_-a_-b-_ c-_".data = false ∧
    transformAll (transformAll "_-a_-b-_ c-_") ≠ transformAll "_-a_-b-_ c-_" := by
  refine ⟨by decide, by decide, by decide, by decide⟩

/-! ### Auxiliary facts about `findClose` and `occursIn` -/

theorem findClose_cons_none_elim {close : List Char} {c : Char} {rest : List Char}
    (h : findClose close (c :: rest) = none) :
    close.isPrefixOf (c :: rest) = false ∧
    (isDotChar c = true → findClose close rest = none) := by
  simp only [findClose] at h
  constructor
  · cases hp : close.isPrefixOf (c :: rest) with
    | false => rfl
    | true => rw [hp] at h; simp at h
  · intro hdot
    cases hp : close.isPrefixOf (c :: rest) with
    | true => rw [hp] at h; simp at h
    | false =>
      rw [hp] at h
      simp only [Bool.false_eq_true, if_false, hdot, if_true] at h
      cases hfc : findClose close rest with
      | none => rfl
      | some p => rw [hfc] at h; exact absurd h (by simp)

theorem findClose_none_not_pfx {close s : List Char}
    (h : findClose close s = none) : close.isPrefixOf s = false := by
  match s with
  | [] =>
    simp only [findClose] at h
    cases hp : close.isPrefixOf ([] : List Char) with
    | false => rfl
    | true => rw [hp] at h; simp at h
  | c :: rest => exact (findClose_cons_none_elim h).1

/-- A failing close search on a concatenation with an all-dots first part
fails on the second part alone. -/
theorem findClose_none_append_right {close : List Char} : ∀ {x y : List Char},
    findClose close (x ++ y) = none → (∀ c ∈ x, isDotChar c = true) →
    findClose close y = none := by
  intro x
  induction x with
  | nil => intro y h _; exact h
  | cons c x' ih =>
    intro y h hdots
    have := findClose_cons_none_elim (by simpa using h)
    exact ih (this.2 (hdots c (List.mem_cons_self c x')))
      (fun d hd => hdots d (List.mem_cons_of_mem c hd))

/-- When a close marker occurs behind an all-dots prefix, the search finds
one: it cannot return `none`. -/
theorem findClose_occ_ne_none {close : List Char} : ∀ {x z : List Char},
    (∀ c ∈ x, isDotChar c = true) → findClose close (x ++ close ++ z) ≠ none := by
  intro x
  induction x with
  | nil =>
    intro z _
    match close with
    | [] =>
      match z with
      | [] => simp [findClose]
      | c :: rest => simp [findClose]
    | a :: cl =>
      have hp : (a :: cl).isPrefixOf ((a :: cl) ++ z) = true :=
        List.isPrefixOf_iff_prefix.mpr (List.prefix_append (a :: cl) z)
      show findClose (a :: cl) (a :: (cl ++ z)) ≠ none
      simp only [findClose]
      rw [show (a :: (cl ++ z)) = (a :: cl) ++ z from rfl, hp]
      simp
  | cons c x' ih =>
    intro z hdots
    show findClose close (c :: (x' ++ close ++ z)) ≠ none
    simp only [findClose]
    cases hp : close.isPrefixOf (c :: (x' ++ close ++ z)) with
    | true => simp
    | false =>
      rw [hdots c (List.mem_cons_self c x')]
      simp only [if_true]
      cases hfc : findClose close (x' ++ close ++ z) with
      | some p => simp
      | none =>
        exact absurd hfc (ih (fun d hd => hdots d (List.mem_cons_of_mem c hd)))

/-- Extending a failing close search to the left through an all-dots block in
which the close marker never starts keeps it failing. -/
theorem findClose_none_append_left {close : List Char} : ∀ {x y : List Char},
    (∀ c ∈ x, isDotChar c = true) →
    (∀ i, i < x.length → close.isPrefixOf ((x ++ y).drop i) = false) →
    findClose close y = none → findClose close (x ++ y) = none := by
  intro x
  induction x with
  | nil => intro y _ _ h; exact h
  | cons c x' ih =>
    intro y hdots hnp h
    show findClose close (c :: (x' ++ y)) = none
    simp only [findClose]
    have h0 : close.isPrefixOf (c :: (x' ++ y)) = false := by
      have := hnp 0 (by simp)
      simpa using this
    rw [h0]
    simp only [Bool.false_eq_true, if_false]
    rw [hdots c (List.mem_cons_self c x')]
    simp only [if_true]
    rw [ih (fun d hd => hdots d (List.mem_cons_of_mem c hd))
      (fun i hi => by
        have := hnp (i + 1) (by simp only [List.length_cons]; omega)
        simpa using this) h]

theorem isPrefixOf_head_mem {m l : List Char} (h : m.isPrefixOf l = true)
    (hm : m ≠ []) : ∃ a, l.head? = some a ∧ a ∈ m := by
  obtain ⟨t, ht⟩ := List.isPrefixOf_iff_prefix.mp h
  match m, hm with
  | a :: m', _ =>
    refine ⟨a, ?_, List.mem_cons_self a m'⟩
    rw [← ht]
    rfl

theorem head_drop_append_mem (rest : List Char) {u : List Char} {i : Nat}
    (hi : i < u.length) :
    ∃ a, ((u ++ rest).drop i).head? = some a ∧ a ∈ u := by
  rw [List.drop_append_of_le_length (le_of_lt hi)]
  match hd : u.drop i with
  | [] =>
    have : u.length - i = 0 := by
      have := List.length_drop i u
      rw [hd] at this
      simpa using this.symm
    omega
  | a :: t =>
    refine ⟨a, by simp, ?_⟩
    have : a ∈ u.drop i := by rw [hd]; exact List.mem_cons_self a t
    exact List.mem_of_mem_drop this

/-- No opening/closing marker can start inside a block none of whose
characters belong to the marker. -/
theorem no_prefix_at_pos_of_not_mem {m u rest : List Char} {i : Nat}
    (hm : m ≠ []) (hi : i < u.length) (hmem : ∀ b ∈ m, b ∉ u) :
    m.isPrefixOf ((u ++ rest).drop i) = false := by
  cases hp : m.isPrefixOf ((u ++ rest).drop i) with
  | false => rfl
  | true =>
    obtain ⟨a, ha1, ha2⟩ := isPrefixOf_head_mem hp hm
    obtain ⟨a', ha1', ha2'⟩ := head_drop_append_mem rest hi
    rw [ha1] at ha1'
    cases Option.some.injEq .. ▸ ha1'
    exact absurd ha2' (hmem a ha2)

theorem isPrefixOf_append_left {m x y : List Char} (h : m.isPrefixOf (x ++ y) = true)
    (hlen : m.length ≤ x.length) : m.isPrefixOf x = true := by
  obtain ⟨t, ht⟩ := List.isPrefixOf_iff_prefix.mp h
  apply List.isPrefixOf_iff_prefix.mpr
  have h1 : m = (x ++ y).take m.length := by
    rw [← ht]
    exact (List.take_left m t).symm
  rw [h1, List.take_append_of_le_length hlen]
  exact List.take_prefix m.length x

theorem isPrefixOf_append_ext {pat u z : List Char} (h : pat.isPrefixOf u = true) :
    pat.isPrefixOf (u ++ z) = true := by
  obtain ⟨t, ht⟩ := List.isPrefixOf_iff_prefix.mp h
  exact List.isPrefixOf_iff_prefix.mpr ⟨t ++ z, by rw [← List.append_assoc, ht]⟩

/-- A marker that begins inside a too-short block reaches into the next
segment: the segment's first character belongs to the marker. -/
theorem straddle_head_mem : ∀ {x m : List Char} {hd : Char} {t : List Char},
    m.isPrefixOf (x ++ hd :: t) = true → x.length < m.length → hd ∈ m := by
  intro x
  induction x with
  | nil =>
    intro m hd t h hlen
    match m, hlen with
    | a :: m', _ =>
      obtain ⟨w, hw⟩ := List.isPrefixOf_iff_prefix.mp h
      injection hw with h1 _
      rw [h1]
      exact List.mem_cons_self hd m'
  | cons c x' ih =>
    intro m hd t h hlen
    match m, hlen with
    | a :: m', hlen =>
      obtain ⟨w, hw⟩ := List.isPrefixOf_iff_prefix.mp h
      injection hw with h1 h2
      have hpre : m'.isPrefixOf (x' ++ hd :: t) = true :=
        List.isPrefixOf_iff_prefix.mpr ⟨w, h2⟩
      have hm : hd ∈ m' := ih hpre (by
        simp only [List.length_cons] at hlen
        omega)
      exact List.mem_cons_of_mem a hm

theorem occursIn_of_prefix_drop {pat : List Char} : ∀ {s : List Char} {j : Nat},
    pat.isPrefixOf (s.drop j) = true → occursIn pat s = true := by
  intro s
  induction s with
  | nil =>
    intro j h
    rw [List.drop_nil] at h
    exact h
  | cons c rest ih =>
    intro j h
    cases j with
    | zero =>
      rw [List.drop_zero] at h
      rw [occursIn_cons, h]
      rfl
    | succ j' =>
      rw [List.drop_succ_cons] at h
      rw [occursIn_cons, ih h]
      simp

theorem occursIn_append_right {pat y : List Char} (h : occursIn pat y = true) :
    ∀ x, occursIn pat (x ++ y) = true := by
  intro x
  induction x with
  | nil => exact h
  | cons c x' ih =>
    rw [show (c :: x') ++ y = c :: (x' ++ y) from rfl, occursIn_cons, ih]
    simp

theorem occursIn_append_ext {pat : List Char} : ∀ {u : List Char},
    occursIn pat u = true → ∀ z, occursIn pat (u ++ z) = true := by
  intro u
  induction u with
  | nil =>
    intro h z
    have : pat = [] := by
      have : pat.isPrefixOf ([] : List Char) = true := h
      exact List.prefix_nil.mp (List.isPrefixOf_iff_prefix.mp this)
    subst this
    match z with
    | [] => rfl
    | c :: rest =>
      rw [show ([] : List Char) ++ (c :: rest) = c :: rest from rfl, occursIn_cons]
      simp [List.isPrefixOf]
  | cons c u' ih =>
    intro h z
    rw [occursIn_cons] at h
    rw [show (c :: u') ++ z = c :: (u' ++ z) from rfl, occursIn_cons]
    rcases Bool.or_eq_true_iff.mp h with hp | ho
    · have hx : pat.isPrefixOf (c :: (u' ++ z)) = true := isPrefixOf_append_ext hp
      rw [hx]
      simp
    · rw [ih ho z]
      simp

theorem occursIn_false_of_infix {pat x mid z : List Char}
    (h : occursIn pat (x ++ mid ++ z) = false) : occursIn pat mid = false := by
  cases ho : occursIn pat mid with
  | false => rfl
  | true =>
    have h1 := occursIn_append_ext ho z
    have h2 := occursIn_append_right h1 x
    rw [← List.append_assoc] at h2
    rw [h2] at h
    cases h

theorem occursIn_false_append_right {pat x y : List Char}
    (h : occursIn pat (x ++ y) = false) : occursIn pat y = false := by
  cases ho : occursIn pat y with
  | false => rfl
  | true =>
    rw [occursIn_append_right ho x] at h
    cases h

theorem findClose_cons_none_intro {close : List Char} {c : Char} {rest : List Char}
    (h1 : close.isPrefixOf (c :: rest) = false)
    (h2 : isDotChar c = true → findClose close rest = none) :
    findClose close (c :: rest) = none := by
  simp only [findClose, h1]
  simp only [Bool.false_eq_true, if_false]
  cases hdot : isDotChar c with
  | false => simp
  | true => rw [h2 hdot]; simp

theorem occursIn_true_decomp {pat : List Char} : ∀ {l : List Char},
    occursIn pat l = true → ∃ x y, l = x ++ pat ++ y := by
  intro l
  induction l with
  | nil =>
    intro h
    have : pat = [] :=
      List.prefix_nil.mp (List.isPrefixOf_iff_prefix.mp h)
    exact ⟨[], [], by simp [this]⟩
  | cons c rest ih =>
    intro h
    rw [occursIn_cons] at h
    rcases Bool.or_eq_true_iff.mp h with hp | ho
    · obtain ⟨t, ht⟩ := List.isPrefixOf_iff_prefix.mp hp
      exact ⟨[], t, by simp [← ht]⟩
    · obtain ⟨x, y, hxy⟩ := ih ho
      exact ⟨c :: x, y, by simp [hxy]⟩

theorem occursIn_false_of_disjoint {m u : List Char} (hm : m ≠ [])
    (hdisj : ∀ b ∈ m, b ∉ u) : occursIn m u = false := by
  cases ho : occursIn m u with
  | false => rfl
  | true =>
    obtain ⟨x, y, hxy⟩ := occursIn_true_decomp ho
    match m, hm with
    | a :: m', _ =>
      have : a ∈ u := by
        rw [hxy]
        simp
      exact absurd this (hdisj a (List.mem_cons_self a m'))

/-- No marker can start at a position of the block `u` when the marker does
not occur inside `u` and `u`'s last character is not a marker character
(ruling out a marker straddling out of `u`); markers here have length at most
two. -/
theorem no_prefix_in_block {m u R : List Char}
    (hm : m ≠ []) (hm2 : m.length ≤ 2)
    (hocc : occursIn m u = false)
    (hlast : ∀ a, u.getLast? = some a → a ∉ m) :
    ∀ i, i < u.length → m.isPrefixOf ((u ++ R).drop i) = false := by
  intro i hi
  cases hp : m.isPrefixOf ((u ++ R).drop i) with
  | false => rfl
  | true =>
    exfalso
    rw [List.drop_append_of_le_length (le_of_lt hi)] at hp
    by_cases hlen : m.length ≤ u.length - i
    · have h1 : m.isPrefixOf (u.drop i) = true :=
        isPrefixOf_append_left hp (by rw [List.length_drop]; exact hlen)
      have h2 := occursIn_of_prefix_drop h1
      rw [hocc] at h2
      cases h2
    · have hdi : (u.drop i).length = u.length - i := List.length_drop i u
      have h1 : u.length - i = 1 := by omega
      obtain ⟨x, hx⟩ : ∃ x, u.drop i = [x] := by
        match hd : u.drop i with
        | [] => rw [hd] at hdi; simp at hdi; omega
        | [x] => exact ⟨x, rfl⟩
        | x :: y :: t => rw [hd] at hdi; simp at hdi; omega
      have hu : u = u.take i ++ [x] := by
        rw [← hx, List.take_append_drop]
      have hxlast : u.getLast? = some x := by
        rw [hu]
        exact List.getLast?_concat (u.take i)
      obtain ⟨a, ha1, ha2⟩ := isPrefixOf_head_mem hp hm
      rw [hx] at ha1
      simp only [List.cons_append, List.head?_cons, Option.some.injEq] at ha1
      exact absurd ha2 (ha1 ▸ hlast x hxlast)

/-- Dropping past a leading block of an append. -/
theorem drop_append_block {x R : List Char} (j : Nat) :
    (x ++ R).drop (x.length + j) = R.drop j := by
  rw [← List.drop_drop, List.drop_left]

theorem scan_match_decomp {o oc : List Char} {c : Char} {rest cap rem : List Char}
    (hp : o.isPrefixOf (c :: rest) = true)
    (hfc : findClose oc ((c :: rest).drop o.length) = some (cap, rem)) :
    c :: rest = o ++ (cap ++ (oc ++ rem)) := by
  obtain ⟨t, ht⟩ := List.isPrefixOf_iff_prefix.mp hp
  have hdrop : (c :: rest).drop o.length = t := by rw [← ht, List.drop_left]
  have h2 := findClose_append hfc
  rw [hdrop] at h2
  rw [← ht, h2]
  simp [List.append_assoc]

theorem findClose_rem_length {o oc : List Char} (ho : o ≠ []) {c : Char}
    {rest cap rem : List Char}
    (hp : o.isPrefixOf (c :: rest) = true)
    (hfc : findClose oc ((c :: rest).drop o.length) = some (cap, rem)) :
    rem.length ≤ rest.length := by
  have hlen := findClose_some_length hfc
  have hole : o.length ≤ rest.length + 1 := by
    have := List.IsPrefix.length_le (List.isPrefixOf_iff_prefix.mp hp)
    simpa using this
  have hop : 1 ≤ o.length := by
    cases o with
    | nil => exact absurd rfl ho
    | cons _ _ => simp
  have hdl : ((c :: rest).drop o.length).length = rest.length + 1 - o.length := by simp
  omega

/-- When the marker `m` does not open at the current position of the input,
it does not open at the corresponding position of the scan output either: the
next output character is the next input character or the head of the
replacement prefix. -/
theorem not_prefix_scan_head {m o oc pre post : List Char}
    (hm2 : m.length ≤ 2) (ho : o ≠ []) (hprene : pre ≠ [])
    (hprehead : ∀ a, pre.head? = some a → a ∉ m)
    {c : Char} {rest : List Char}
    (hnp : m.isPrefixOf (c :: rest) = false) :
    m.isPrefixOf (c :: jsReplace o oc pre post rest) = false := by
  match m, hm2 with
  | [], _ => simp [List.isPrefixOf] at hnp
  | [a], _ =>
    have e1 : ∀ X : List Char, List.isPrefixOf [a] (c :: X) = (a == c) := by
      intro X
      simp [List.isPrefixOf]
    rw [e1] at hnp
    rw [e1]
    exact hnp
  | [a, b], _ =>
    have e2 : ∀ X : List Char,
        List.isPrefixOf [a, b] (c :: X) = (a == c && List.isPrefixOf [b] X) := by
      intro X
      simp [List.isPrefixOf]
    rw [e2] at hnp
    rw [e2]
    cases hac : (a == c) with
    | false => simp
    | true =>
      have hb : List.isPrefixOf [b] rest = false := by
        cases hx : List.isPrefixOf [b] rest with
        | false => rfl
        | true => simp [hx, hac] at hnp
      simp only [hac, Bool.true_and]
      match rest, hb with
      | [], hb => simp [List.isPrefixOf]
      | r :: rest', hb =>
        have e1 : ∀ X : List Char, List.isPrefixOf [b] (r :: X) = (b == r) := by
          intro X
          simp [List.isPrefixOf]
        rcases @jsReplace_cons_shape o oc pre post ho r rest' with ⟨u, hu⟩ | ⟨u, hu⟩
        · rw [hu, e1]
          rw [e1] at hb
          exact hb
        · rw [hu]
          match pre, hprene with
          | ph :: pt, _ =>
            have e3 : List.isPrefixOf [b] ((ph :: pt) ++ u) = (b == ph) := by
              simp [List.isPrefixOf]
            rw [e3]
            have hph : ph ∉ [a, b] := hprehead ph rfl
            cases hbe : (b == ph) with
            | false => rfl
            | true =>
              have : b = ph := by simpa using hbe
              subst this
              exact absurd (by simp) hph
  | a :: b :: x :: t, h2 => 
    exact absurd h2 (by simp only [List.length_cons]; omega)

/-- Scanning with any of the three rules preserves the absence of a reachable
closing marker `m`: the replacement text contains no `m`, creates no new `m`
at segment boundaries, and deletes no line terminators, so a failing
close-search still fails on the output. -/
theorem findClose_none_scan {m o oc pre post : List Char}
    (hm : m ≠ []) (hm2 : m.length ≤ 2) (ho : o ≠ [])
    (hodot : ∀ ch ∈ o, isDotChar ch = true)
    (hocdot : ∀ ch ∈ oc, isDotChar ch = true)
    (hpredot : ∀ ch ∈ pre, isDotChar ch = true)
    (hpostdot : ∀ ch ∈ post, isDotChar ch = true)
    (hpreocc : occursIn m pre = false) (hpostocc : occursIn m post = false)
    (hprene : pre ≠ []) (hpostne : post ≠ [])
    (hprehead : ∀ a, pre.head? = some a → a ∉ m)
    (hprelast : ∀ a, pre.getLast? = some a → a ∉ m)
    (hposthead : ∀ a, post.head? = some a → a ∉ m)
    (hpostlast : ∀ a, post.getLast? = some a → a ∉ m) :
    ∀ (n : Nat) (s : List Char), s.length ≤ n → findClose m s = none →
      findClose m (jsReplace o oc pre post s) = none := by
  intro n
  induction n with
  | zero =>
    intro s hle h
    have : s = [] := List.length_eq_zero.mp (Nat.le_zero.mp hle)
    subst this
    exact h
  | succ n ih =>
    intro s hle h
    match s with
    | [] => exact h
    | c :: rest =>
      obtain ⟨hnp, hdot⟩ := findClose_cons_none_elim h
      have hrle : rest.length ≤ n := by simp only [List.length_cons] at hle; omega
      have hlit : jsReplace o oc pre post (c :: rest) = c :: jsReplace o oc pre post rest →
          findClose m (jsReplace o oc pre post (c :: rest)) = none := by
        intro heq
        rw [heq]
        apply findClose_cons_none_intro
        · exact not_prefix_scan_head hm2 ho hprene hprehead (findClose_none_not_pfx h)
        · intro hcdot
          exact ih rest hrle (hdot hcdot)
      cases hp : o.isPrefixOf (c :: rest) with
      | false => exact hlit (jsReplace_cons_not_open hp)
      | true =>
        cases hfc : findClose oc ((c :: rest).drop o.length) with
        | none => exact hlit (jsReplace_cons_fail hp hfc)
        | some p =>
          obtain ⟨cap, rem⟩ := p
          rw [jsReplace_cons_match ho hp hfc]
          have hdecomp := scan_match_decomp hp hfc
          have hcapdots := findClose_cap_dots hfc
          have hremnone : findClose m rem = none := by
            have h2 : findClose m ((o ++ (cap ++ oc)) ++ rem) = none := by
              have e1 : (o ++ (cap ++ oc)) ++ rem = o ++ (cap ++ (oc ++ rem)) := by
                simp [List.append_assoc]
              rw [e1, ← hdecomp]
              exact h
            refine @findClose_none_append_right m (o ++ (cap ++ oc)) rem h2 ?_
            intro ch hch
            rcases List.mem_append.mp hch with h1 | h1
            · exact hodot ch h1
            · rcases List.mem_append.mp h1 with h2' | h2'
              · exact hcapdots ch h2'
              · exact hocdot ch h2'
          have hcapocc : occursIn m cap = false := by
            cases hoc2 : occursIn m cap with
            | false => rfl
            | true =>
              exfalso
              obtain ⟨x1, x2, hx⟩ := occursIn_true_decomp hoc2
              have hs2 : c :: rest = (o ++ x1) ++ m ++ (x2 ++ (oc ++ rem)) := by
                rw [hdecomp, hx]
                simp [List.append_assoc]
              have hdots2 : ∀ ch ∈ o ++ x1, isDotChar ch = true := by
                intro ch hch
                rcases List.mem_append.mp hch with h1 | h1
                · exact hodot ch h1
                · refine hcapdots ch ?_
                  rw [hx]
                  exact List.mem_append_left _ (List.mem_append_left _ h1)
              exact findClose_occ_ne_none hdots2 (hs2 ▸ h)
          have hy : findClose m (jsReplace o oc pre post rem) = none :=
            ih rem (le_trans (findClose_rem_length ho hp hfc) hrle) hremnone
          have hblock : ∀ i, i < pre.length + (cap.length + post.length) →
              m.isPrefixOf
                ((pre ++ (cap ++ (post ++ jsReplace o oc pre post rem))).drop i) = false := by
            intro i hi
            by_cases h1 : i < pre.length
            · exact no_prefix_in_block hm hm2 hpreocc hprelast i h1
            · by_cases h2 : i < pre.length + cap.length
              · obtain ⟨j, rfl⟩ : ∃ j, i = pre.length + j := ⟨i - pre.length, by omega⟩
                have hj : j < cap.length := by omega
                rw [drop_append_block]
                cases hp2 : m.isPrefixOf
                    ((cap ++ (post ++ jsReplace o oc pre post rem)).drop j) with
                | false => rfl
                | true =>
                  exfalso
                  rw [List.drop_append_of_le_length (le_of_lt hj)] at hp2
                  by_cases hlen2 : m.length ≤ cap.length - j
                  · have h3 : m.isPrefixOf (cap.drop j) = true :=
                      isPrefixOf_append_left hp2 (by rw [List.length_drop]; exact hlen2)
                    have h4 := occursIn_of_prefix_drop h3
                    rw [hcapocc] at h4
                    cases h4
                  · obtain ⟨ph, pt, hpost⟩ : ∃ ph pt, post = ph :: pt := by
                      cases post with
                      | nil => exact absurd rfl hpostne
                      | cons a l => exact ⟨a, l, rfl⟩
                    have hp3 : m.isPrefixOf
                        (cap.drop j ++ (ph :: (pt ++ jsReplace o oc pre (ph :: pt) rem)))
                          = true := by
                      rw [hpost] at hp2
                      simpa using hp2
                    have hmem := straddle_head_mem hp3 (by rw [List.length_drop]; omega)
                    refine absurd hmem (hposthead ph ?_)
                    rw [hpost]
                    rfl
              · obtain ⟨k, rfl⟩ : ∃ k, i = pre.length + (cap.length + k) :=
                  ⟨i - pre.length - cap.length, by omega⟩
                have hk : k < post.length := by
                  have : (pre.length + (cap.length + post.length)) =
                      pre.length + cap.length + post.length := by omega
                  omega
                rw [drop_append_block, drop_append_block]
                exact no_prefix_in_block hm hm2 hpostocc hpostlast k hk
          have e2 : ((pre ++ cap) ++ post) ++ jsReplace o oc pre post rem =
              pre ++ (cap ++ (post ++ jsReplace o oc pre post rem)) := by
            simp [List.append_assoc]
          apply findClose_none_append_left
          · intro ch hch
            rcases List.mem_append.mp hch with h1 | h1
            · rcases List.mem_append.mp h1 with h2' | h2'
              · exact hpredot ch h2'
              · exact hcapdots ch h2'
            · exact hpostdot ch h1
          · intro i hi
            rw [e2]
            apply hblock
            have hw : ((pre ++ cap) ++ post).length =
                pre.length + (cap.length + post.length) := by
              simp
            omega
          · exact hy

theorem mem_of_head?_eq_some {l : List Char} {a : Char} (h : l.head? = some a) :
    a ∈ l := by
  match l with
  | [] => simp at h
  | c :: t =>
    simp only [List.head?_cons, Option.some.injEq] at h
    rw [← h]
    exact List.mem_cons_self c t

/-- No marker position inside one replacement block `pre ++ cap ++ post` of
the scan output, given that the marker occurs in none of the three parts and
cannot straddle the segment boundaries. -/
theorem block_positions {m pre post cap y : List Char}
    (hm : m ≠ []) (hm2 : m.length ≤ 2)
    (hpreocc : occursIn m pre = false)
    (hprelast : ∀ a, pre.getLast? = some a → a ∉ m)
    (hcapocc : occursIn m cap = false)
    (hpostocc : occursIn m post = false)
    (hpostlast : ∀ a, post.getLast? = some a → a ∉ m)
    (hposthead : ∀ a, post.head? = some a → a ∉ m)
    (hpostne : post ≠ []) :
    ∀ i, i < pre.length + (cap.length + post.length) →
      m.isPrefixOf ((pre ++ (cap ++ (post ++ y))).drop i) = false := by
  intro i hi
  by_cases h1 : i < pre.length
  · exact no_prefix_in_block hm hm2 hpreocc hprelast i h1
  · by_cases h2 : i < pre.length + cap.length
    · obtain ⟨j, rfl⟩ : ∃ j, i = pre.length + j := ⟨i - pre.length, by omega⟩
      have hj : j < cap.length := by omega
      rw [drop_append_block]
      cases hp2 : m.isPrefixOf ((cap ++ (post ++ y)).drop j) with
      | false => rfl
      | true =>
        exfalso
        rw [List.drop_append_of_le_length (le_of_lt hj)] at hp2
        by_cases hlen2 : m.length ≤ cap.length - j
        · have h3 : m.isPrefixOf (cap.drop j) = true :=
            isPrefixOf_append_left hp2 (by rw [List.length_drop]; exact hlen2)
          have h4 := occursIn_of_prefix_drop h3
          rw [hcapocc] at h4
          cases h4
        · obtain ⟨ph, pt, hpost⟩ : ∃ ph pt, post = ph :: pt := by
            cases post with
            | nil => exact absurd rfl hpostne
            | cons a l => exact ⟨a, l, rfl⟩
          have hp3 : m.isPrefixOf (cap.drop j ++ (ph :: (pt ++ y))) = true := by
            rw [hpost] at hp2
            simpa using hp2
          have hmem := straddle_head_mem hp3 (by rw [List.length_drop]; omega)
          refine absurd hmem (hposthead ph ?_)
          rw [hpost]
          rfl
    · obtain ⟨k, rfl⟩ : ∃ k, i = pre.length + (cap.length + k) :=
        ⟨i - pre.length - cap.length, by omega⟩
      have hk : k < post.length := by omega
      rw [drop_append_block, drop_append_block]
      exact no_prefix_in_block hm hm2 hpostocc hpostlast k hk

/-- After one scan of a rule whose opening and closing markers coincide
(`==` and `^`), the output admits no further match of that rule: one
application of `addMarkTags` or `addSuperScript` is saturating. -/
theorem noMatch_scan_self {m pre post : List Char}
    (hm : m ≠ []) (hm2 : m.length ≤ 2)
    (hmdot : ∀ b ∈ m, isDotChar b = true)
    (hprene : pre ≠ []) (hpostne : post ≠ [])
    (hpre : ∀ b ∈ m, b ∉ pre) (hpost : ∀ b ∈ m, b ∉ post)
    (hpredot : ∀ ch ∈ pre, isDotChar ch = true)
    (hpostdot : ∀ ch ∈ post, isDotChar ch = true) :
    ∀ (n : Nat) (s : List Char), s.length ≤ n →
      noMatch m m (jsReplace m m pre post s) := by
  have hpreocc : occursIn m pre = false := occursIn_false_of_disjoint hm hpre
  have hpostocc : occursIn m post = false := occursIn_false_of_disjoint hm hpost
  have hprehead : ∀ a, pre.head? = some a → a ∉ m := by
    intro a ha hmem
    exact hpre a hmem (mem_of_head?_eq_some ha)
  have hprelast : ∀ a, pre.getLast? = some a → a ∉ m := by
    intro a ha hmem
    exact hpre a hmem (List.mem_of_getLast?_eq_some ha)
  have hposthead : ∀ a, post.head? = some a → a ∉ m := by
    intro a ha hmem
    exact hpost a hmem (mem_of_head?_eq_some ha)
  have hpostlast : ∀ a, post.getLast? = some a → a ∉ m := by
    intro a ha hmem
    exact hpost a hmem (List.mem_of_getLast?_eq_some ha)
  have k2self : ∀ (k : Nat) (t : List Char), t.length ≤ k → findClose m t = none →
      findClose m (jsReplace m m pre post t) = none :=
    findClose_none_scan hm hm2 hm hmdot hmdot hpredot hpostdot hpreocc hpostocc
      hprene hpostne hprehead hprelast hposthead hpostlast
  intro n
  induction n with
  | zero =>
    intro s hle
    have : s = [] := List.length_eq_zero.mp (Nat.le_zero.mp hle)
    subst this
    exact noMatch_nil hm
  | succ n ih =>
    intro s hle
    match s with
    | [] => exact noMatch_nil hm
    | c :: rest =>
      have hrle : rest.length ≤ n := by simp only [List.length_cons] at hle; omega
      cases hp : m.isPrefixOf (c :: rest) with
      | false =>
        rw [jsReplace_cons_not_open hp]
        refine noMatch_cons.mpr ⟨?_, ih rest hrle⟩
        intro hx
        rw [not_prefix_scan_head hm2 hm hprene hprehead hp] at hx
        cases hx
      | true =>
        cases hfc : findClose m ((c :: rest).drop m.length) with
        | none =>
          rw [jsReplace_cons_fail hp hfc]
          refine noMatch_cons.mpr ⟨?_, ih rest hrle⟩
          intro hx
          match m, hm, hm2, hp, hfc, hx, hprehead with
          | [a], _, _, hp, hfc, hx, hprehead =>
            have hca : c = a := isPrefixOf_singleton_head hp
            have hfc' : findClose [a] rest = none := by
              simpa using hfc
            have : findClose [a] (jsReplace [a] [a] pre post rest) = none :=
              k2self rest.length rest (le_refl rest.length) hfc'
            simpa using this
          | [a, b], _, _, hp, hfc, hx, hprehead =>
            obtain ⟨w, hw⟩ := List.isPrefixOf_iff_prefix.mp hp
            injection hw with hw1 hw2
            subst hw1
            have hrw : rest = b :: w := hw2.symm
            subst hrw
            have hfc' : findClose [a, b] w = none := by
              simpa using hfc
            have hshape : jsReplace [a, b] [a, b] pre post (b :: w) =
                b :: jsReplace [a, b] [a, b] pre post w := by
              cases hp' : List.isPrefixOf [a, b] (b :: w) with
              | false => exact jsReplace_cons_not_open hp'
              | true =>
                cases hfc2 : findClose [a, b] ((b :: w).drop ([a, b] : List Char).length) with
                | none => exact jsReplace_cons_fail hp' hfc2
                | some p =>
                  exfalso
                  have e2' : List.isPrefixOf [a, b] (b :: w) =
                      (a == b && List.isPrefixOf [b] w) := by
                    simp [List.isPrefixOf]
                  rw [e2'] at hp'
                  obtain ⟨hab, hbw⟩ := Bool.and_eq_true_iff.mp hp'
                  obtain ⟨w2, hw2'⟩ := List.isPrefixOf_iff_prefix.mp hbw
                  have hwform : w = b :: w2 := by simpa using hw2'.symm
                  subst hwform
                  obtain ⟨hnp2, hdot2⟩ := findClose_cons_none_elim hfc'
                  have hfc3 : findClose [a, b] w2 = none := hdot2 (hmdot b (by simp))
                  have hdrop : ((b :: b :: w2).drop ([a, b] : List Char).length) = w2 := by
                    simp
                  rw [hdrop, hfc3] at hfc2
                  cases hfc2
            rw [hshape] at hx ⊢
            have hgoal : findClose [a, b] (jsReplace [a, b] [a, b] pre post w) = none :=
              k2self w.length w (le_refl w.length) hfc'
            simpa using hgoal
        | some p =>
          obtain ⟨cap, rem⟩ := p
          rw [jsReplace_cons_match hm hp hfc]
          have hcapocc : occursIn m cap = false := findClose_cap_no_close hm hfc
          have e2 : ((pre ++ cap) ++ post) ++ jsReplace m m pre post rem =
              pre ++ (cap ++ (post ++ jsReplace m m pre post rem)) := by
            simp [List.append_assoc]
          have hrem : rem.length ≤ rest.length := findClose_rem_length hm hp hfc
          apply noMatch_append
          · intro i hi
            rw [e2]
            apply block_positions hm hm2 hpreocc hprelast hcapocc hpostocc hpostlast
              hposthead hpostne
            have hw : ((pre ++ cap) ++ post).length =
                pre.length + (cap.length + post.length) := by simp
            omega
          · exact ih rem (le_trans hrem hrle)

/-- Variant of `no_prefix_in_block` where a straddling marker is excluded by
the head of the following segment rather than the last character of `u`. -/
theorem no_prefix_in_block' {m u : List Char} {ph : Char} {pt : List Char}
    (_hm : m ≠ []) (hocc : occursIn m u = false) (hph : ph ∉ m) :
    ∀ i, i < u.length → m.isPrefixOf ((u ++ (ph :: pt)).drop i) = false := by
  intro i hi
  cases hp : m.isPrefixOf ((u ++ (ph :: pt)).drop i) with
  | false => rfl
  | true =>
    exfalso
    rw [List.drop_append_of_le_length (le_of_lt hi)] at hp
    by_cases hlen : m.length ≤ u.length - i
    · have h1 : m.isPrefixOf (u.drop i) = true :=
        isPrefixOf_append_left hp (by rw [List.length_drop]; exact hlen)
      have h2 := occursIn_of_prefix_drop h1
      rw [hocc] at h2
      cases h2
    · have hmem := straddle_head_mem hp (by rw [List.length_drop]; omega)
      exact absurd hmem hph

theorem findClose_ne_none_of_occ {m u y : List Char}
    (hdots : ∀ ch ∈ u, isDotChar ch = true) (ho : occursIn m u = true) :
    findClose m (u ++ y) ≠ none := by
  obtain ⟨x1, x2, hx⟩ := occursIn_true_decomp ho
  have e : u ++ y = (x1 ++ m) ++ (x2 ++ y) := by
    rw [hx]
    simp [List.append_assoc]
  rw [e]
  have e2 : (x1 ++ m) ++ (x2 ++ y) = x1 ++ m ++ (x2 ++ y) := by
    simp [List.append_assoc]
  rw [e2]
  apply findClose_occ_ne_none
  intro ch hch
  refine hdots ch ?_
  rw [hx]
  exact List.mem_append_left _ (List.mem_append_left _ hch)

theorem noMatch_drop {opens close s : List Char} (h : noMatch opens close s) (k : Nat) :
    noMatch opens close (s.drop k) := by
  intro i hp
  rw [List.drop_drop] at hp
  have h2 := h (k + i) hp
  rw [show k + i + opens.length = k + (i + opens.length) by omega] at h2
  rw [List.drop_drop]
  exact h2

/-- Position-0 analysis of the literal-copy case: when the output starts with
the copied character and carries an `m`-opening there, the corresponding
opening in the input was match-free, and the failure carries over to the
scanned remainder. -/
theorem cross_lit_pos0 {m o oc pre post : List Char}
    (hm : m ≠ []) (hm2 : m.length ≤ 2) (ho : o ≠ []) (hprene : pre ≠ [])
    (hprehead : ∀ a, pre.head? = some a → a ∉ m)
    (k2c : ∀ t : List Char, findClose m t = none →
      findClose m (jsReplace o oc pre post t) = none)
    {c : Char} {rest : List Char}
    (h0 : m.isPrefixOf (c :: rest) = true → findClose m ((c :: rest).drop m.length) = none)
    (hx : m.isPrefixOf (c :: jsReplace o oc pre post rest) = true) :
    findClose m ((c :: jsReplace o oc pre post rest).drop m.length) = none := by
  match m, hm, hm2, h0, hx, hprehead with
  | [a], _, _, h0, hx, hprehead =>
    have hca : c = a := isPrefixOf_singleton_head hx
    have hp1 : List.isPrefixOf [a] (c :: rest) = true := by
      subst hca
      simp [List.isPrefixOf]
    have hfc := h0 hp1
    have hfc' : findClose [a] rest = none := by simpa using hfc
    have := k2c rest hfc'
    simpa using this
  | [a, b], _, _, h0, hx, hprehead =>
    have e2 : ∀ X : List Char,
        List.isPrefixOf [a, b] (c :: X) = (a == c && List.isPrefixOf [b] X) := by
      intro X
      simp [List.isPrefixOf]
    rw [e2] at hx
    obtain ⟨hac, hbx⟩ := Bool.and_eq_true_iff.mp hx
    match rest, hbx with
    | [], hbx =>
      rw [show jsReplace o oc pre post [] = [] from rfl] at hbx
      simp [List.isPrefixOf] at hbx
    | r :: rest', hbx =>
      cases hp' : o.isPrefixOf (r :: rest') with
      | false =>
        rw [jsReplace_cons_not_open hp'] at hbx ⊢
        have hbr : b = r := by
          have e1 : List.isPrefixOf [b] (r :: jsReplace o oc pre post rest') = (b == r) := by
            simp [List.isPrefixOf]
          rw [e1] at hbx
          simpa using hbx
        have hp1 : List.isPrefixOf [a, b] (c :: r :: rest') = true := by
          have : (a == c) = true := hac
          have hbr' : (b == r) = true := by simpa using hbr
          simp [List.isPrefixOf, this, hbr']
        have hfc := h0 hp1
        have hfc' : findClose [a, b] rest' = none := by simpa using hfc
        have := k2c rest' hfc'
        simpa using this
      | true =>
        cases hfc2 : findClose oc ((r :: rest').drop o.length) with
        | none =>
          rw [jsReplace_cons_fail hp' hfc2] at hbx ⊢
          have hbr : b = r := by
            have e1 : List.isPrefixOf [b] (r :: jsReplace o oc pre post rest') = (b == r) := by
              simp [List.isPrefixOf]
            rw [e1] at hbx
            simpa using hbx
          have hp1 : List.isPrefixOf [a, b] (c :: r :: rest') = true := by
            have : (a == c) = true := hac
            have hbr' : (b == r) = true := by simpa using hbr
            simp [List.isPrefixOf, this, hbr']
          have hfc := h0 hp1
          have hfc' : findClose [a, b] rest' = none := by simpa using hfc
          have := k2c rest' hfc'
          simpa using this
        | some p =>
          exfalso
          obtain ⟨cap2, rem2⟩ := p
          rw [jsReplace_cons_match ho hp' hfc2] at hbx
          obtain ⟨hd, hh1, hh2⟩ := isPrefixOf_head_mem hbx (by simp)
          obtain ⟨ph, pt, hpre⟩ : ∃ ph pt, pre = ph :: pt := by
            cases pre with
            | nil => exact absurd rfl hprene
            | cons x l => exact ⟨x, l, rfl⟩
          have hhead : (pre ++ cap2 ++ post ++ jsReplace o oc pre post rem2).head? =
              some ph := by
            rw [hpre]
            simp
          rw [hhead] at hh1
          have hdb : hd = b := by simpa using hh2
          have hphb : ph = b := by
            have h1 : ph = hd := by simpa using hh1
            rw [h1, hdb]
          have hph := hprehead ph (by rw [hpre]; rfl)
          refine hph ?_
          rw [hphb]
          simp

/-- Scanning with one rule preserves match-freeness of another marker `m`
whose opening and closing coincide: the replacement text neither contains `m`
nor joins two halves of it, captures are kept verbatim, and no line
terminator is removed, so a match-free string stays match-free. -/
theorem noMatch_cross_scan {m o oc pre post : List Char}
    (hm : m ≠ []) (hm2 : m.length ≤ 2) (ho : o ≠ [])
    (hodot : ∀ ch ∈ o, isDotChar ch = true)
    (hocdot : ∀ ch ∈ oc, isDotChar ch = true)
    (hpredot : ∀ ch ∈ pre, isDotChar ch = true)
    (hpostdot : ∀ ch ∈ post, isDotChar ch = true)
    (hpreocc : occursIn m pre = false) (hpostocc : occursIn m post = false)
    (hprene : pre ≠ []) (hpostne : post ≠ [])
    (hprehead : ∀ a, pre.head? = some a → a ∉ m)
    (hprelast : ∀ a, pre.getLast? = some a → a ∉ m)
    (hposthead : ∀ a, post.head? = some a → a ∉ m)
    (hpostlast : ∀ a, post.getLast? = some a → a ∉ m) :
    ∀ (n : Nat) (s : List Char), s.length ≤ n → noMatch m m s →
      noMatch m m (jsReplace o oc pre post s) := by
  have k2c : ∀ t : List Char, findClose m t = none →
      findClose m (jsReplace o oc pre post t) = none := fun t ht =>
    findClose_none_scan hm hm2 ho hodot hocdot hpredot hpostdot hpreocc hpostocc
      hprene hpostne hprehead hprelast hposthead hpostlast t.length t (le_refl t.length) ht
  intro n
  induction n with
  | zero =>
    intro s hle _
    have : s = [] := List.length_eq_zero.mp (Nat.le_zero.mp hle)
    subst this
    exact noMatch_nil hm
  | succ n ih =>
    intro s hle hs
    match s with
    | [] => exact noMatch_nil hm
    | c :: rest =>
      obtain ⟨h0, ht⟩ := noMatch_cons.mp hs
      have hrle : rest.length ≤ n := by simp only [List.length_cons] at hle; omega
      have hlit : jsReplace o oc pre post (c :: rest) = c :: jsReplace o oc pre post rest →
          noMatch m m (jsReplace o oc pre post (c :: rest)) := by
        intro heq
        rw [heq]
        refine noMatch_cons.mpr ⟨?_, ih rest hrle ht⟩
        intro hx
        exact cross_lit_pos0 hm hm2 ho hprene hprehead k2c h0 hx
      cases hp : o.isPrefixOf (c :: rest) with
      | false => exact hlit (jsReplace_cons_not_open hp)
      | true =>
        cases hfc : findClose oc ((c :: rest).drop o.length) with
        | none => exact hlit (jsReplace_cons_fail hp hfc)
        | some p =>
          obtain ⟨cap, rem⟩ := p
          rw [jsReplace_cons_match ho hp hfc]
          have hdecomp := scan_match_decomp hp hfc
          have hcapdots := findClose_cap_dots hfc
          have hrem : rem.length ≤ rest.length := findClose_rem_length ho hp hfc
          have hremNM : noMatch m m rem := by
            have h1 := noMatch_drop hs (o.length + (cap.length + oc.length))
            have e4 : (c :: rest).drop (o.length + (cap.length + oc.length)) = rem := by
              rw [hdecomp, drop_append_block, drop_append_block, List.drop_left]
            rw [e4] at h1
            exact h1
          have hXNM : noMatch m m (jsReplace o oc pre post rem) :=
            ih rem (le_trans hrem hrle) hremNM
          have hXnone0 : findClose m rem = none → findClose m (jsReplace o oc pre post rem) = none :=
            k2c rem
          generalize hXdef : jsReplace o oc pre post rem = X at hXNM hXnone0 ⊢
          have e2 : ((pre ++ cap) ++ post) ++ X = pre ++ (cap ++ (post ++ X)) := by
            simp [List.append_assoc]
          have hnm : noMatch m m (pre ++ (cap ++ (post ++ X))) := by
            intro i hx
            by_cases hiL : i < pre.length + (cap.length + post.length)
            · by_cases h1 : i < pre.length
              · rw [no_prefix_in_block hm hm2 hpreocc hprelast i h1] at hx
                cases hx
              · by_cases h2 : i < pre.length + cap.length
                · obtain ⟨j, rfl⟩ : ∃ j, i = pre.length + j := ⟨i - pre.length, by omega⟩
                  have hj : j < cap.length := by omega
                  rw [drop_append_block, List.drop_append_of_le_length (le_of_lt hj)] at hx
                  by_cases hlen2 : m.length ≤ cap.length - j
                  · have hsub : m.isPrefixOf (cap.drop j) = true :=
                      isPrefixOf_append_left hx (by rw [List.length_drop]; exact hlen2)
                    have horig : m.isPrefixOf ((c :: rest).drop (o.length + j)) = true := by
                      rw [hdecomp, drop_append_block,
                        List.drop_append_of_le_length (le_of_lt hj)]
                      exact isPrefixOf_append_ext hsub
                    have F := hs (o.length + j) horig
                    have eF : (c :: rest).drop (o.length + j + m.length) =
                        cap.drop (j + m.length) ++ (oc ++ rem) := by
                      rw [hdecomp,
                        show o.length + j + m.length = o.length + (j + m.length) by omega,
                        drop_append_block, List.drop_append_of_le_length (by omega)]
                    rw [eF] at F
                    have eG : (pre ++ (cap ++ (post ++ X))).drop
                        (pre.length + j + m.length) =
                        cap.drop (j + m.length) ++ (post ++ X) := by
                      rw [show pre.length + j + m.length = pre.length + (j + m.length) by
                          omega,
                        drop_append_block, List.drop_append_of_le_length (by omega)]
                    rw [eG]
                    have hcdots : ∀ ch ∈ cap.drop (j + m.length), isDotChar ch = true := by
                      intro ch hch
                      exact hcapdots ch (List.mem_of_mem_drop hch)
                    have hcocc : occursIn m (cap.drop (j + m.length)) = false := by
                      cases hoc2 : occursIn m (cap.drop (j + m.length)) with
                      | false => rfl
                      | true => exact absurd F (findClose_ne_none_of_occ hcdots hoc2)
                    have hremnone : findClose m rem = none := by
                      refine @findClose_none_append_right m
                        (cap.drop (j + m.length) ++ oc) rem ?_ ?_
                      · have e5 : (cap.drop (j + m.length) ++ oc) ++ rem =
                            cap.drop (j + m.length) ++ (oc ++ rem) := by
                          simp [List.append_assoc]
                        rw [e5]
                        exact F
                      · intro ch hch
                        rcases List.mem_append.mp hch with hA | hA
                        · exact hcdots ch hA
                        · exact hocdot ch hA
                    have hXnone : findClose m X = none := hXnone0 hremnone
                    have e6 : cap.drop (j + m.length) ++ (post ++ X) =
                        (cap.drop (j + m.length) ++ post) ++ X := by
                      simp [List.append_assoc]
                    rw [e6]
                    apply findClose_none_append_left
                    · intro ch hch
                      rcases List.mem_append.mp hch with hA | hA
                      · exact hcdots ch hA
                      · exact hpostdot ch hA
                    · intro k hk
                      by_cases hk1 : k < (cap.drop (j + m.length)).length
                      · obtain ⟨ph, pt, hpost2⟩ : ∃ ph pt, post = ph :: pt := by
                          cases post with
                          | nil => exact absurd rfl hpostne
                          | cons x l => exact ⟨x, l, rfl⟩
                        have e7 : (cap.drop (j + m.length) ++ post) ++ X =
                            cap.drop (j + m.length) ++ (ph :: (pt ++ X)) := by
                          rw [hpost2]
                          simp [List.append_assoc]
                        rw [e7]
                        refine no_prefix_in_block' hm hcocc ?_ k hk1
                        exact hposthead ph (by rw [hpost2]; rfl)
                      · obtain ⟨k', rfl⟩ : ∃ k',
                            k = (cap.drop (j + m.length)).length + k' :=
                          ⟨k - (cap.drop (j + m.length)).length, by omega⟩
                        have hk' : k' < post.length := by
                          rw [List.length_append] at hk
                          omega
                        have e8 : (cap.drop (j + m.length) ++ post) ++ X =
                            cap.drop (j + m.length) ++ (post ++ X) := by
                          simp [List.append_assoc]
                        rw [e8, drop_append_block]
                        exact no_prefix_in_block hm hm2 hpostocc hpostlast k' hk'
                    · exact hXnone
                  · obtain ⟨ph, pt, hpost2⟩ : ∃ ph pt, post = ph :: pt := by
                      cases post with
                      | nil => exact absurd rfl hpostne
                      | cons x l => exact ⟨x, l, rfl⟩
                    have hx' : m.isPrefixOf (cap.drop j ++ (ph :: (pt ++ X))) = true := by
                      rw [hpost2] at hx
                      simpa using hx
                    have hmem := straddle_head_mem hx' (by rw [List.length_drop]; omega)
                    have hph := hposthead ph (by rw [hpost2]; rfl)
                    exact absurd hmem hph
                · obtain ⟨k, rfl⟩ : ∃ k, i = pre.length + (cap.length + k) :=
                    ⟨i - pre.length - cap.length, by omega⟩
                  have hk : k < post.length := by omega
                  rw [drop_append_block, drop_append_block] at hx
                  rw [no_prefix_in_block hm hm2 hpostocc hpostlast k hk] at hx
                  cases hx
            · obtain ⟨k, rfl⟩ : ∃ k, i = (pre.length + (cap.length + post.length)) + k :=
                ⟨i - (pre.length + (cap.length + post.length)), by omega⟩
              have edrop : ∀ j : Nat, (pre ++ (cap ++ (post ++ X))).drop
                  ((pre.length + (cap.length + post.length)) + j) = X.drop j := by
                intro j
                rw [show (pre.length + (cap.length + post.length)) + j =
                    pre.length + (cap.length + (post.length + j)) by omega,
                  drop_append_block, drop_append_block, drop_append_block]
              rw [edrop k] at hx
              rw [show (pre.length + (cap.length + post.length)) + k + m.length =
                  (pre.length + (cap.length + post.length)) + (k + m.length) by omega,
                edrop (k + m.length)]
              exact hXNM k hx
          rw [show (pre ++ cap ++ post ++ X) = pre ++ (cap ++ (post ++ X)) from e2]
          exact hnm

theorem getLast?_append_right (x : List Char) : ∀ {y : List Char}, y ≠ [] →
    (x ++ y).getLast? = y.getLast? := by
  induction x with
  | nil => intro y _; rfl
  | cons c t ih =>
    intro y h
    have h2 : t ++ y ≠ [] := by
      intro hc
      exact h (List.append_eq_nil.mp hc).2
    obtain ⟨d, L, hdl⟩ : ∃ d L, t ++ y = d :: L := by
      cases he : t ++ y with
      | nil => exact absurd he h2
      | cons d L => exact ⟨d, L, rfl⟩
    rw [List.cons_append, hdl, List.getLast?_cons_cons, ← hdl, ih h]

/-- A two-character pattern occurring in an append lies in the left part,
in the right part, or straddles the single junction. -/
theorem occursIn_two_append {a b : Char} : ∀ {x y : List Char},
    occursIn [a, b] (x ++ y) = true →
    occursIn [a, b] x = true ∨ occursIn [a, b] y = true ∨
      (x.getLast? = some a ∧ y.head? = some b) := by
  intro x
  induction x with
  | nil => intro y h; exact Or.inr (Or.inl h)
  | cons c x' ih =>
    intro y h
    rw [List.cons_append, occursIn_cons, Bool.or_eq_true] at h
    rcases h with hpfx | hrec
    · have e : List.isPrefixOf [a, b] (c :: (x' ++ y)) =
          (a == c && List.isPrefixOf [b] (x' ++ y)) := rfl
      rw [e, Bool.and_eq_true_iff] at hpfx
      obtain ⟨hac, hbp⟩ := hpfx
      have hca : c = a := (beq_iff_eq.mp hac).symm
      cases x' with
      | nil =>
        right; right
        refine ⟨by simp [hca], ?_⟩
        cases y with
        | nil => simp [List.isPrefixOf] at hbp
        | cons d y' =>
          have e2 : List.isPrefixOf [b] (d :: y') =
              (b == d && List.isPrefixOf ([] : List Char) y') := rfl
          rw [show ([] : List Char) ++ d :: y' = d :: y' from rfl, e2,
            Bool.and_eq_true_iff] at hbp
          have hbd : b = d := beq_iff_eq.mp hbp.1
          simp [hbd]
      | cons d x'' =>
        left
        have e2 : List.isPrefixOf [b] (d :: (x'' ++ y)) =
            (b == d && List.isPrefixOf ([] : List Char) (x'' ++ y)) := rfl
        rw [show (d :: x'') ++ y = d :: (x'' ++ y) from rfl, e2,
          Bool.and_eq_true_iff] at hbp
        have hbd : b = d := beq_iff_eq.mp hbp.1
        rw [occursIn_cons, Bool.or_eq_true]
        left
        show List.isPrefixOf [a, b] (c :: d :: x'') = true
        have e3 : List.isPrefixOf [a, b] (c :: d :: x'') =
            (a == c && (b == d && List.isPrefixOf ([] : List Char) x'')) := rfl
        rw [e3]
        simp [hca, hbd, List.isPrefixOf]
    · rcases ih hrec with h1 | h2 | ⟨hl, hh⟩
      · left
        rw [occursIn_cons, Bool.or_eq_true]
        exact Or.inr h1
      · exact Or.inr (Or.inl h2)
      · right; right
        refine ⟨?_, hh⟩
        cases x' with
        | nil => simp at hl
        | cons e x'' => rw [List.getLast?_cons_cons]; exact hl

/-- The first character of a scan output is the first character of the input
or the first character of the inserted opening text. -/
theorem jsReplace_head_mem {o oc pre post : List Char} (ho : o ≠ [])
    (hprene : pre ≠ []) :
    ∀ (s : List Char) (t : Char), (jsReplace o oc pre post s).head? = some t →
      s.head? = some t ∨ pre.head? = some t := by
  intro s t h
  cases s with
  | nil =>
    rw [show jsReplace o oc pre post [] = [] from rfl] at h
    simp at h
  | cons c rest =>
    rcases jsReplace_cons_shape ho c rest with ⟨u, hu⟩ | ⟨u, hu⟩
    · rw [hu] at h
      exact Or.inl h
    · rw [hu] at h
      right
      cases pre with
      | nil => exact absurd rfl hprene
      | cons p ps => simpa using h

/-- A scan whose inserted texts neither contain the two-character pattern
`[a, b]` nor can join with adjacent text to form it preserves absence of
that pattern. -/
theorem occursIn_two_scan {a b : Char} {o oc pre post : List Char}
    (ho : o ≠ []) (hprene : pre ≠ []) (hpostne : post ≠ [])
    (hpre : occursIn [a, b] pre = false)
    (hpost : occursIn [a, b] post = false)
    (hpreh : ∀ x, pre.head? = some x → x ≠ b)
    (hprel : ∀ x, pre.getLast? = some x → x ≠ a)
    (hposth : ∀ x, post.head? = some x → x ≠ b)
    (hpostl : ∀ x, post.getLast? = some x → x ≠ a) :
    ∀ (n : Nat) (s : List Char), s.length ≤ n → occursIn [a, b] s = false →
      occursIn [a, b] (jsReplace o oc pre post s) = false := by
  intro n
  induction n with
  | zero =>
    intro s hle _
    have hse : s = [] := List.length_eq_zero.mp (Nat.le_zero.mp hle)
    subst hse
    rfl
  | succ n ih =>
    intro s hle hs
    match s with
    | [] => rfl
    | c :: rest =>
      rw [occursIn_cons, Bool.or_eq_false_iff] at hs
      obtain ⟨hpfx0, hrest⟩ := hs
      have hrle : rest.length ≤ n := by
        simp only [List.length_cons] at hle
        omega
      have hlit : jsReplace o oc pre post (c :: rest) = c :: jsReplace o oc pre post rest →
          occursIn [a, b] (jsReplace o oc pre post (c :: rest)) = false := by
        intro heq
        rw [heq, occursIn_cons, Bool.or_eq_false_iff]
        refine ⟨?_, ih rest hrle hrest⟩
        cases hbx : List.isPrefixOf [a, b] (c :: jsReplace o oc pre post rest) with
        | false => rfl
        | true =>
          exfalso
          have e : List.isPrefixOf [a, b] (c :: jsReplace o oc pre post rest) =
              (a == c && List.isPrefixOf [b] (jsReplace o oc pre post rest)) := rfl
          rw [e, Bool.and_eq_true_iff] at hbx
          obtain ⟨hac, hbR⟩ := hbx
          cases hR : jsReplace o oc pre post rest with
          | nil =>
            rw [hR] at hbR
            simp [List.isPrefixOf] at hbR
          | cons r R' =>
            rw [hR] at hbR
            have e2 : List.isPrefixOf [b] (r :: R') =
                (b == r && List.isPrefixOf ([] : List Char) R') := rfl
            rw [e2, Bool.and_eq_true_iff] at hbR
            have hbr : b = r := beq_iff_eq.mp hbR.1
            have hhead : (jsReplace o oc pre post rest).head? = some r := by
              rw [hR]
              rfl
            rcases jsReplace_head_mem ho hprene rest r hhead with hA | hA
            · cases rest with
              | nil => simp at hA
              | cons d rest' =>
                have hdr : d = r := by simpa using hA
                have : List.isPrefixOf [a, b] (c :: d :: rest') = true := by
                  have e3 : List.isPrefixOf [a, b] (c :: d :: rest') =
                      (a == c && (b == d && List.isPrefixOf ([] : List Char) rest')) := rfl
                  rw [e3, hac]
                  have : (b == d) = true := beq_iff_eq.mpr (by rw [hbr, hdr])
                  rw [this]
                  cases rest' <;> rfl
                rw [this] at hpfx0
                cases hpfx0
            · exact hpreh r hA hbr.symm
      cases hp : o.isPrefixOf (c :: rest) with
      | false => exact hlit (jsReplace_cons_not_open hp)
      | true =>
        cases hfc : findClose oc ((c :: rest).drop o.length) with
        | none => exact hlit (jsReplace_cons_fail hp hfc)
        | some p =>
          obtain ⟨cap, rem⟩ := p
          rw [jsReplace_cons_match ho hp hfc]
          have hdecomp := scan_match_decomp hp hfc
          have hrem : rem.length ≤ rest.length := findClose_rem_length ho hp hfc
          have hwhole : occursIn [a, b] (c :: rest) = false := by
            rw [occursIn_cons, Bool.or_eq_false_iff]
            exact ⟨hpfx0, hrest⟩
          have hcapocc : occursIn [a, b] cap = false := by
            have h1 : occursIn [a, b] ((o ++ cap) ++ (oc ++ rem)) = false := by
              have e4 : (o ++ cap) ++ (oc ++ rem) = o ++ (cap ++ (oc ++ rem)) := by
                simp [List.append_assoc]
              rw [e4, ← hdecomp]
              exact hwhole
            exact occursIn_false_of_infix h1
          have hremocc : occursIn [a, b] rem = false := by
            have h1 : occursIn [a, b] (((o ++ cap) ++ oc) ++ rem) = false := by
              have e4 : ((o ++ cap) ++ oc) ++ rem = o ++ (cap ++ (oc ++ rem)) := by
                simp [List.append_assoc]
              rw [e4, ← hdecomp]
              exact hwhole
            exact occursIn_false_append_right h1
          have hXocc : occursIn [a, b] (jsReplace o oc pre post rem) = false :=
            ih rem (le_trans hrem hrle) hremocc
          cases hocc : occursIn [a, b]
              (pre ++ cap ++ post ++ jsReplace o oc pre post rem) with
          | false => rfl
          | true =>
            exfalso
            rcases occursIn_two_append hocc with h1 | h1 | ⟨hl1, _⟩
            · rcases occursIn_two_append h1 with h2 | h2 | ⟨hl2, hh2⟩
              · rcases occursIn_two_append h2 with h3 | h3 | ⟨hl3, hh3⟩
                · rw [h3] at hpre
                  cases hpre
                · rw [h3] at hcapocc
                  cases hcapocc
                · exact hprel a hl3 rfl
              · rw [h2] at hpost
                cases hpost
              · exact hposth b hh2 rfl
            · rw [h1] at hXocc
              cases hXocc
            · have : (pre ++ cap ++ post).getLast? = post.getLast? :=
                getLast?_append_right (pre ++ cap) hpostne
              rw [this] at hl1
              exact hpostl a hl1 rfl

theorem pin_ne {o : Option Char} {c : Char} (hc : o = some c) {b : Char}
    (hne : c ≠ b) : ∀ x, o = some x → x ≠ b := by
  intro x hx
  rw [hc] at hx
  injection hx with h
  rw [← h]
  exact hne

theorem pin_notmem {o : Option Char} {c : Char} (hc : o = some c) {m : List Char}
    (hne : c ∉ m) : ∀ x, o = some x → x ∉ m := by
  intro x hx
  rw [hc] at hx
  injection hx with h
  rw [← h]
  exact hne

/-- On inputs with no occurrence of the subscript opening `_-`, one pass of
the composed rewriter saturates: the mark and superscript scans leave no
fresh `==` or `^…^` match, the inserted tags contain no `_-`, and the
junctions of inserted tags with surrounding text cannot form `_-`,
so a second pass is the identity. -/
theorem transformAllL_fixed_of_no_subopen (l : List Char)
    (h : occursIn ['_', '-'] l = false) :
    transformAllL (transformAllL l) = transformAllL l := by
  have hm1 : occursIn ['_', '-'] (addMarkTagsL l) = false := by
    show occursIn ['_', '-']
      (jsReplace ['=', '='] ['=', '='] "<mark>".data "</mark>".data l) = false
    exact occursIn_two_scan (by decide) (by decide) (by decide) (by decide) (by decide)
      (pin_ne (show ("<mark>".data).head? = some '<' by decide) (by decide))
      (pin_ne (show ("<mark>".data).getLast? = some '>' by decide) (by decide))
      (pin_ne (show ("</mark>".data).head? = some '<' by decide) (by decide))
      (pin_ne (show ("</mark>".data).getLast? = some '>' by decide) (by decide))
      l.length l (le_refl l.length) h
  have hm2 : occursIn ['_', '-'] (addSuperScriptL (addMarkTagsL l)) = false := by
    show occursIn ['_', '-'] (jsReplace ['^'] ['^'] "<sup class=\"suptext\">".data
      "</sup>".data (addMarkTagsL l)) = false
    exact occursIn_two_scan (by decide) (by decide) (by decide) (by decide) (by decide)
      (pin_ne (show ("<sup class=\"suptext\">".data).head? = some '<' by decide) (by decide))
      (pin_ne (show ("<sup class=\"suptext\">".data).getLast? = some '>' by decide) (by decide))
      (pin_ne (show ("</sup>".data).head? = some '<' by decide) (by decide))
      (pin_ne (show ("</sup>".data).getLast? = some '>' by decide) (by decide))
      (addMarkTagsL l).length (addMarkTagsL l) (le_refl (addMarkTagsL l).length) hm1
  have hNMmark1 : noMatch ['=', '='] ['=', '='] (addMarkTagsL l) := by
    show noMatch ['=', '='] ['=', '=']
      (jsReplace ['=', '='] ['=', '='] "<mark>".data "</mark>".data l)
    exact noMatch_scan_self (by decide) (by decide) (by decide) (by decide) (by decide)
      (by decide) (by decide) (by decide) (by decide) l.length l (le_refl l.length)
  have hNMmark2 : noMatch ['=', '='] ['=', '='] (addSuperScriptL (addMarkTagsL l)) := by
    show noMatch ['=', '='] ['=', '='] (jsReplace ['^'] ['^']
      "<sup class=\"suptext\">".data "</sup>".data (addMarkTagsL l))
    exact noMatch_cross_scan (by decide) (by decide) (by decide) (by decide) (by decide)
      (by decide) (by decide) (by decide) (by decide) (by decide) (by decide)
      (pin_notmem (show ("<sup class=\"suptext\">".data).head? = some '<' by decide)
        (by decide))
      (pin_notmem (show ("<sup class=\"suptext\">".data).getLast? = some '>' by decide)
        (by decide))
      (pin_notmem (show ("</sup>".data).head? = some '<' by decide) (by decide))
      (pin_notmem (show ("</sup>".data).getLast? = some '>' by decide) (by decide))
      (addMarkTagsL l).length (addMarkTagsL l) (le_refl (addMarkTagsL l).length) hNMmark1
  have hNMsup : noMatch ['^'] ['^'] (addSuperScriptL (addMarkTagsL l)) := by
    show noMatch ['^'] ['^'] (jsReplace ['^'] ['^']
      "<sup class=\"suptext\">".data "</sup>".data (addMarkTagsL l))
    exact noMatch_scan_self (by decide) (by decide) (by decide) (by decide) (by decide)
      (by decide) (by decide) (by decide) (by decide)
      (addMarkTagsL l).length (addMarkTagsL l) (le_refl (addMarkTagsL l).length)
  have hsub : addSubScriptL (addSuperScriptL (addMarkTagsL l)) =
      addSuperScriptL (addMarkTagsL l) := by
    show jsReplace ['_', '-'] ['-', '_'] "<sub class=\"subtext\">".data "</sub>".data
      (addSuperScriptL (addMarkTagsL l)) = addSuperScriptL (addMarkTagsL l)
    exact jsReplace_of_no_open (addSuperScriptL (addMarkTagsL l)).length
      (addSuperScriptL (addMarkTagsL l))
      (le_refl (addSuperScriptL (addMarkTagsL l)).length) hm2
  have hmark2 : addMarkTagsL (addSuperScriptL (addMarkTagsL l)) =
      addSuperScriptL (addMarkTagsL l) := by
    show jsReplace ['=', '='] ['=', '='] "<mark>".data "</mark>".data
      (addSuperScriptL (addMarkTagsL l)) = addSuperScriptL (addMarkTagsL l)
    exact jsReplace_eq_self_of_noMatch hNMmark2
  have hsup2 : addSuperScriptL (addSuperScriptL (addMarkTagsL l)) =
      addSuperScriptL (addMarkTagsL l) := by
    show jsReplace ['^'] ['^'] "<sup class=\"suptext\">".data "</sup>".data
      (addSuperScriptL (addMarkTagsL l)) = addSuperScriptL (addMarkTagsL l)
    exact jsReplace_eq_self_of_noMatch hNMsup
  calc transformAllL (transformAllL l)
      = transformAllL (addSuperScriptL (addMarkTagsL l)) := by rw [show transformAllL l = addSubScriptL (addSuperScriptL (addMarkTagsL l)) from rfl, hsub]
    _ = addSubScriptL (addSuperScriptL (addMarkTagsL (addSuperScriptL (addMarkTagsL l)))) := rfl
    _ = addSubScriptL (addSuperScriptL (addSuperScriptL (addMarkTagsL l))) := by rw [hmark2]
    _ = addSubScriptL (addSuperScriptL (addMarkTagsL l)) := by rw [hsup2]
    _ = addSuperScriptL (addMarkTagsL l) := hsub
    _ = transformAllL l := hsub.symm.trans rfl

/-- C4: the composed inline rewriter `addSubScript ∘ addSuperScript ∘ addMarkTags`
is idempotent on every input that contains no occurrence of the subscript
opening marker `_-`; on such inputs applying the transformation pipeline a
second time changes nothing. -/
theorem composed_rewriter_idempotent_without_sub_open (s : String)
    (h : occursIn ['_', '-'] s.data = false) :
    transformAll (transformAll s) = transformAll s := by
  have hl := transformAllL_fixed_of_no_subopen s.data h
  show String.mk (transformAllL (transformAll s).data) = String.mk (transformAllL s.data)
  rw [show (transformAll s).data = transformAllL s.data from rfl, hl]

theorem composed_rewriter_idempotent_without_sub_open_witness :
    occursIn ['_', '-'] "a ==b== ^c^ x-_y".data = false ∧
      transformAll (transformAll "a ==b== ^c^ x-_y") = transformAll "a ==b== ^c^ x-_y" :=
  ⟨by decide, composed_rewriter_idempotent_without_sub_open "a ==b== ^c^ x-_y" (by decide)⟩
